import Mathlib

/-!
Threshold BLS signatures (package bls, file tbls.go)

A shallow embedding of ThresholdSign, ThresholdVerify and
AggregateSignatures, together with the collaborators they call: the pairing
suite, the message hash, the ordinary BLS check and the secret-sharing
library (public polynomial, recovery of the commitment by interpolation).

Scalars form a field F; the groups G1, G2 and GT of the suite are F-modules
written additively, so the scalar multiplication x · P of the source is
x • P and the identity point is 0.
-/

namespace share

/-- Modelled from the spec: the x-coordinate of the share with index i in the
sharing library, which is not among the sources (spec section 3: the index
is the party's position, an integer from 0, and the value is one point on the
secret polynomial; the secret itself sits at x = 0). It is the scalar
SetInt64(1 + int64(i)), the sum being taken in 64-bit two's complement. -/
def shareX (F : Type) [Field F] (i : Int) : F :=
  (((((1 + i) + 2 ^ 63) % 2 ^ 64 - 2 ^ 63 : Int)) : F)

/-- The type share.PriShare: a private share, index I and scalar value V. -/
structure PriShare (F : Type) where
  I : Int
  V : F

/-- The type share.PubShare: a public share, index I and group element V. -/
structure PubShare (G : Type) where
  I : Int
  V : G
  deriving DecidableEq

/-- Modelled from the spec: the type share.PriPoly of the sharing library
(spec section 1: a (t, n) Shamir-style polynomial sharing). The coefficients
of the secret polynomial in ascending order, the constant term (the shared
secret) first. -/
structure PriPoly (F : Type) where
  coeffs : List F

/-- Modelled from the spec: the type share.PubPoly of the sharing library
(spec section 3: commitment to a polynomial of degree t - 1 in group G2). The
commitments to the coefficients, constant term first. -/
structure PubPoly (G : Type) where
  commits : List G

/-- Modelled from the spec: PriPoly.Eval of the sharing library, which is not
among the sources (spec section 3: the value of a private share is one point
on the secret polynomial). Horner evaluation at shareX i, from the highest
coefficient down. -/
def PriPoly.Eval {F : Type} [Field F] (p : PriPoly F) (i : Int) : PriShare F :=
  ⟨i, p.coeffs.foldr (fun c v => v * shareX F i + c) 0⟩

/-- Modelled from the spec: PriPoly.Secret of the sharing library (spec 4.4,
step 4: the group secret is the value of the polynomial at 0). It is
coeffs[0], the constant term. -/
def PriPoly.Secret {F : Type} [Field F] (p : PriPoly F) : F :=
  p.coeffs.headD 0

/-- Modelled from the spec: PriPoly.Commit of the sharing library (spec
glossary: group-encoded coefficients of the sharing polynomial). Every
coefficient is multiplied into the base point b. -/
def PriPoly.Commit {F G : Type} [Field F] [AddCommGroup G] [Module F G]
    (p : PriPoly F) (b : G) : PubPoly G :=
  ⟨p.coeffs.map (fun c => c • b)⟩

/-- Modelled from the spec: PubPoly.Eval of the sharing library (spec section
3: Eval(index) yields the public point corresponding to a party's share).
Horner evaluation in the group at shareX i. -/
def PubPoly.Eval {F G : Type} [Field F] [AddCommGroup G] [Module F G]
    (p : PubPoly G) (i : Int) : PubShare G :=
  ⟨i, p.commits.foldr (fun c v => shareX F i • v + c) 0⟩

/-- Modelled from the spec: PubPoly.Commit of the sharing library (spec 3:
Commit() yields the constant term, the group public key). It is commits[0];
none stands for the index panic on a polynomial without commitments. -/
def PubPoly.Commit {G : Type} (p : PubPoly G) : Option G :=
  p.commits.head?

/-- Modelled from the spec: the loop that picks the shares share.RecoverCommit
interpolates over (spec 1: the primitive reconstructs the value at 0 given t
(index, value) pairs). It walks the shares with their positions, records each
under its position and stops once t are recorded. -/
def xCommitAux {G : Type} (t : Int) :
    Nat → List (PubShare G) → List (Nat × PubShare G) → List (Nat × PubShare G)
  | _, [], x => x
  | i, sh :: rest, x =>
    let x' := x ++ [(i, sh)]
    if (x'.length : Int) = t then x' else xCommitAux t (i + 1) rest x'

/-- Modelled from the spec: the shares share.RecoverCommit interpolates over,
as the list of (position, share) entries. -/
def xCommit {G : Type} (shares : List (PubShare G)) (t : Int) : List (Nat × PubShare G) :=
  xCommitAux t 0 shares []

/-- Modelled from the spec: the numerator of the Lagrange coefficient at 0 of
entry i in share.RecoverCommit, the product of the x-coordinates of the other
entries. -/
def lagrangeNum {F G : Type} [Field F] (x : List (Nat × PubShare G)) (i : Nat) : F :=
  x.foldl (fun num e => if i = e.1 then num else num * shareX F e.2.I) 1

/-- Modelled from the spec: the denominator of the Lagrange coefficient at 0 of
entry i with x-coordinate xi in share.RecoverCommit, the product of xj - xi
over the other entries. -/
def lagrangeDen {F G : Type} [Field F] (x : List (Nat × PubShare G)) (i : Nat) (xi : F) : F :=
  x.foldl (fun den e => if i = e.1 then den else den * (shareX F e.2.I - xi)) 1

/-- Modelled from the spec: share.RecoverCommit of the sharing library, which
is not among the sources (spec 4.4, step 4: interpolate at x = 0 via Lagrange
coefficients in the exponent, using the scheme parameters t and n; spec 7:
its failure is an error value). Fewer than t shares is an error; otherwise
the sum of coefficient · share value over the entries, which does not depend
on the order the entries are visited in. The spec gives the party count n no
role in the interpolation. Division by a zero denominator follows the field
convention 0⁻¹ = 0. -/
def RecoverCommit (F : Type) {G : Type} [Field F] [AddCommGroup G] [Module F G]
    (shares : List (PubShare G)) (t _n : Int) : Except String G :=
  let x := xCommit shares t
  if (x.length : Int) < t then
    Except.error "share: not enough good public shares to reconstruct secret commitment"
  else
    Except.ok (x.foldl (fun Acc e =>
      Acc + (lagrangeNum (F := F) x e.1 / lagrangeDen x e.1 (shareX F e.2.I)) • e.2.V) 0)

end share

namespace bls

open share

/-- The interface PairingSuite, as the operations tbls.go and its helpers use:
the base point of G2, the pairing into GT, the map of a message into G1 that
hashed builds on, and the binary encoding of G1 points. The laws are those of
a cryptographic pairing: bilinear, and non-degenerate against the base
point. -/
structure PairingSuite (F G1 G2 GT : Type) [Field F] [AddCommGroup G1] [Module F G1]
    [AddCommGroup G2] [Module F G2] [AddCommGroup GT] [Module F GT] where
  base2 : G2
  pairing : G1 → G2 → GT
  hashToG1 : List UInt8 → G1
  marshal : G1 → List UInt8
  unmarshal : List UInt8 → Option G1
  pairing_add_left : ∀ P Q R, pairing (P + Q) R = pairing P R + pairing Q R
  pairing_smul_left : ∀ (a : F) P Q, pairing (a • P) Q = a • pairing P Q
  pairing_add_right : ∀ P Q R, pairing P (Q + R) = pairing P Q + pairing P R
  pairing_smul_right : ∀ (a : F) P Q, pairing P (a • Q) = a • pairing P Q
  pairing_base_nondeg : ∀ P, pairing P base2 = 0 → P = 0
  unmarshal_marshal : ∀ P, unmarshal (marshal P) = some P

/-- The interface DistKeyShare: a private share and the public polynomial. -/
structure DistKeyShare (F G2 : Type) where
  PriShare : share.PriShare F
  Polynomial : share.PubPoly G2

/-- The type ThresholdSig of tbls.go. -/
structure ThresholdSig (G1 : Type) where
  Index : Int
  Sig : G1
  deriving DecidableEq

/-- What a call of AggregateSignatures ends in: the pair (buff, nil), the
pair (nil, err), or a panic. -/
inductive AggResult where
  | sig (buff : List UInt8)
  | err (e : String)
  | panic (v : String)
  deriving DecidableEq, Repr

section code

variable {F G1 G2 GT : Type} [Field F] [AddCommGroup G1] [Module F G1]
  [AddCommGroup G2] [Module F G2] [AddCommGroup GT] [Module F GT] [DecidableEq GT]

/-- Modelled from the spec: the helper hashed(s, msg) of package bls, which is
not among the sources (spec section 4.1: a deterministic function of the
suite and the message bytes into G1). -/
def hashed (s : PairingSuite F G1 G2 GT) (msg : List UInt8) : G1 :=
  s.hashToG1 msg

/-- Modelled from the spec: the ordinary BLS check Verify(s, public, msg, sig)
of package bls, which is not among the sources (spec 4.4, step 6, and spec 3:
the standard verification equation against the public key). The bytes are
decoded to a G1 point and e(H(m), public) is compared with e(sig, G2 base);
none is the nil error. -/
def Verify (s : PairingSuite F G1 G2 GT) (pub : G2) (msg sig : List UInt8) : Option String :=
  match s.unmarshal sig with
  | none => some "bls: invalid signature encoding"
  | some sigPoint =>
    if s.pairing (hashed s msg) pub = s.pairing sigPoint s.base2 then none
    else some "bls: invalid signature"

/-- Modelled from the spec: the ordinary BLS signature Sign(s, private, msg) of
package bls, which is not among the sources (spec section 4.4 step 4: the
ordinary BLS signature under a secret key x is the point x · H(message);
step 5: encoded to its byte form). -/
def Sign (s : PairingSuite F G1 G2 GT) (x : F) (msg : List UInt8) : List UInt8 :=
  s.marshal (x • hashed s msg)

/-- The function ThresholdSign of tbls.go. -/
def ThresholdSign (s : PairingSuite F G1 G2 GT) (d : DistKeyShare F G2) (msg : List UInt8) :
    ThresholdSig G1 :=
  let HM := hashed s msg
  let xHM := d.PriShare.V • HM
  { Index := d.PriShare.I, Sig := xHM }

/-- The function ThresholdVerify of tbls.go. -/
def ThresholdVerify (s : PairingSuite F G1 G2 GT) (pub : PubPoly G2) (msg : List UInt8)
    (sig : ThresholdSig G1) : Bool :=
  let HM := hashed s msg
  let eXHM := s.pairing sig.Sig s.base2
  let xiG := (PubPoly.Eval (F := F) pub sig.Index).V
  let exiG := s.pairing HM xiG
  decide (eXHM = exiG)

/-- The fields of a ThresholdSig as a Go caller can fill them: Sig is a value
of the interface abstract.Point and may be nil (none). -/
structure RawThresholdSig (G1 : Type) where
  Index : Int
  Sig : Option G1

/-- The function ThresholdVerify of tbls.go on Go values: sig is a pointer and
may be nil (none), and so may the point it holds. Reading sig.Sig through a
nil pointer panics; the pairing of the suite is defined on points of G1 only,
so the call with a nil point panics as well. On a present point the result is
that of ThresholdVerify. -/
def ThresholdVerifyRaw (s : PairingSuite F G1 G2 GT) (pub : PubPoly G2) (msg : List UInt8)
    (sig : Option (RawThresholdSig G1)) : Except String Bool :=
  match sig with
  | none => Except.error "invalid memory address or nil pointer dereference"
  | some c =>
    match c.Sig with
    | none => Except.error "pairing of a nil point"
    | some S => Except.ok (ThresholdVerify s pub msg { Index := c.Index, Sig := S })

/-- The ceiling, on a 64-bit platform, of the capacity that
make([]*share.PubShare, 0, n) accepts: the runtime panics with "makeslice: cap
out of range" when the capacity is negative or when capacity times the size
of a pointer (8 bytes) exceeds the addressable heap (2^48 bytes). The
capacity a given machine grants can be smaller; the functions below take it
as the argument cap. -/
def maxSliceCap : Int := 2 ^ 45

/-- The loop of AggregateSignatures of tbls.go on Go values: every entry of
sigs is a pointer that may be nil, holding a point that may be nil, and the
call of ThresholdVerify panics on either (see ThresholdVerifyRaw); the panic
ends the loop. Candidates failing ThresholdVerify are skipped, the others
appended to pubShares, and the loop breaks once pubShares holds at least t
entries. -/
def collectSharesRaw (s : PairingSuite F G1 G2 GT) (pub : PubPoly G2) (msg : List UInt8)
    (t : Int) :
    List (Option (RawThresholdSig G1)) → List (PubShare G1) → Except String (List (PubShare G1))
  | [], pubShares => Except.ok pubShares
  | none :: _, _ => Except.error "invalid memory address or nil pointer dereference"
  | some c :: rest, pubShares =>
    match c.Sig with
    | none => Except.error "pairing of a nil point"
    | some S =>
      if !ThresholdVerify s pub msg { Index := c.Index, Sig := S } then
        collectSharesRaw s pub msg t rest pubShares
      else
        let pubShares' := pubShares ++ [{ V := S, I := c.Index }]
        if (pubShares'.length : Int) ≥ t then Except.ok pubShares'
        else collectSharesRaw s pub msg t rest pubShares'

/-- The function AggregateSignatures of tbls.go on Go values, with the two
collaborators it calls after the loop, the recovery primitive and the final
check, as parameters, and with cap, the largest capacity the machine grants
the initial make of pubShares. The make aborts the call when n is negative,
above maxSliceCap or above cap; a nil candidate or nil point panics in the
loop; a public polynomial without commitments makes public.Commit() panic. -/
def AggregateSignaturesRawWith (cap : Int)
    (recover : List (PubShare G1) → Int → Int → Except String G1)
    (verify : G2 → List UInt8 → List UInt8 → Option String)
    (s : PairingSuite F G1 G2 GT) (pub : PubPoly G2) (msg : List UInt8)
    (sigs : List (Option (RawThresholdSig G1))) (n t : Int) : AggResult :=
  if n < 0 ∨ min cap maxSliceCap < n then
    AggResult.panic "makeslice: cap out of range"
  else
    match collectSharesRaw s pub msg t sigs [] with
    | Except.error v => AggResult.panic v
    | Except.ok pubShares =>
      if (pubShares.length : Int) < t then
        AggResult.err "not enough valid threshold bls signatures"
      else
        match recover pubShares t n with
        | Except.error err => AggResult.err err
        | Except.ok sig =>
          let buff := s.marshal sig
          match pub.Commit with
          | none => AggResult.panic "index out of range"
          | some pk =>
            match verify pk msg buff with
            | some _ => AggResult.panic "math is wrong?"
            | none => AggResult.sig buff

/-- The function AggregateSignatures of tbls.go on Go values: the recovery
primitive is share.RecoverCommit over G1 and the final check is Verify. -/
def AggregateSignaturesRaw (cap : Int) (s : PairingSuite F G1 G2 GT) (pub : PubPoly G2)
    (msg : List UInt8) (sigs : List (Option (RawThresholdSig G1))) (n t : Int) : AggResult :=
  AggregateSignaturesRawWith cap (RecoverCommit F) (Verify s) s pub msg sigs n t

/-- A candidate that is present and holds a point, as the Go value passed to
the code: a non-nil pointer to a ThresholdSig with a non-nil Sig. -/
def ThresholdSig.toRaw (sig : ThresholdSig G1) : Option (RawThresholdSig G1) :=
  some { Index := sig.Index, Sig := some sig.Sig }

/-- The loop of AggregateSignatures on candidates that are all present and hold
a point (collectSharesRaw on such a list returns this list):
candidates failing ThresholdVerify are skipped, the others appended to
pubShares, and the loop breaks once pubShares holds at least t entries. -/
def collectShares (s : PairingSuite F G1 G2 GT) (pub : PubPoly G2) (msg : List UInt8) (t : Int) :
    List (ThresholdSig G1) → List (PubShare G1) → List (PubShare G1)
  | [], pubShares => pubShares
  | sig :: rest, pubShares =>
    if !ThresholdVerify s pub msg sig then collectShares s pub msg t rest pubShares
    else
      let pubShares' := pubShares ++ [{ V := sig.Sig, I := sig.Index }]
      if (pubShares'.length : Int) ≥ t then pubShares'
      else collectShares s pub msg t rest pubShares'

/-- The function AggregateSignatures of tbls.go, with the recovery primitive and
the final check as parameters, run on a list of candidates that are all
present and hold a point: AggregateSignaturesRawWith on that list. -/
def AggregateSignaturesWith (cap : Int)
    (recover : List (PubShare G1) → Int → Int → Except String G1)
    (verify : G2 → List UInt8 → List UInt8 → Option String)
    (s : PairingSuite F G1 G2 GT) (pub : PubPoly G2) (msg : List UInt8)
    (sigs : List (ThresholdSig G1)) (n t : Int) : AggResult :=
  AggregateSignaturesRawWith cap recover verify s pub msg (sigs.map ThresholdSig.toRaw) n t

/-- The function AggregateSignatures of tbls.go run on a list of candidates that
are all present and hold a point: the recovery primitive is
share.RecoverCommit over G1 and the final check is Verify. -/
def AggregateSignatures (cap : Int) (s : PairingSuite F G1 G2 GT) (pub : PubPoly G2)
    (msg : List UInt8) (sigs : List (ThresholdSig G1)) (n t : Int) : AggResult :=
  AggregateSignaturesWith cap (RecoverCommit F) (Verify s) s pub msg sigs n t

/-- A valid (t, n) sharing of the secret p.coeffs[0]: the threshold is at
least one and at most n, the polynomial has t coefficients (degree t - 1),
and the n parties 0 .. n-1 have pairwise distinct x-coordinates in the
scalar field. -/
def ValidSharing (p : PriPoly F) (n t : Int) : Prop :=
  1 ≤ t ∧ t ≤ n ∧ (p.coeffs.length : Int) = t ∧
    ∀ i j : Int, 0 ≤ i → i < n → 0 ≤ j → j < n → shareX F i = shareX F j → i = j

/-- The key share the key generation hands to party i of the sharing p. -/
def honestShare (s : PairingSuite F G1 G2 GT) (p : PriPoly F) (i : Int) : DistKeyShare F G2 :=
  { PriShare := p.Eval i, Polynomial := p.Commit s.base2 }

/-- The signatures the parties listed in idxs produce with ThresholdSign. -/
def honestSigs (s : PairingSuite F G1 G2 GT) (p : PriPoly F) (msg : List UInt8)
    (idxs : List Int) : List (ThresholdSig G1) :=
  idxs.map (fun i => ThresholdSign s (honestShare s p i) msg)

end code

section toy

/-- The scalar field of the small test suite has 13 elements. -/
instance toyPrime : Fact (Nat.Prime 13) := ⟨by norm_num⟩

/-- The message hash of the test suite: the sum of the bytes, modulo 13. -/
def toyHash (msg : List UInt8) : ZMod 13 :=
  ((msg.foldl (fun a b => a + b.toNat) 0 : Nat) : ZMod 13)

/-- The encoding of the test suite: one byte holding the residue. -/
def toyMarshal (P : ZMod 13) : List UInt8 := [UInt8.ofNat P.val]

/-- The decoding of the test suite: exactly one byte, below 13. -/
def toyUnmarshal : List UInt8 → Option (ZMod 13)
  | [b] => if b.toNat < 13 then some (b.toNat : ZMod 13) else none
  | _ => none

/-- A small pairing suite for concrete runs: all three groups are the
integers modulo 13, the base point is 1 and the pairing is multiplication. -/
def toySuite : PairingSuite (ZMod 13) (ZMod 13) (ZMod 13) (ZMod 13) where
  base2 := 1
  pairing := fun P Q => P * Q
  hashToG1 := toyHash
  marshal := toyMarshal
  unmarshal := toyUnmarshal
  pairing_add_left := by intro P Q R; ring
  pairing_smul_left := by intro a P Q; simp only [smul_eq_mul]; ring
  pairing_add_right := by intro P Q R; ring
  pairing_smul_right := by intro a P Q; simp only [smul_eq_mul]; ring
  pairing_base_nondeg := by intro P h; simpa using h
  unmarshal_marshal := by decide

/-- A (3, 5) sharing of the secret 7 over the test suite: 7 + 3 x + 2 x². -/
def toyPoly : PriPoly (ZMod 13) := ⟨[7, 3, 2]⟩

/-- The public polynomial of toyPoly. -/
def toyPub : PubPoly (ZMod 13) := toyPoly.Commit toySuite.base2

/-- A (2, 5) sharing of the secret 12 in which party 0 holds the share 0:
12 + x, evaluated at x = 1. -/
def zeroSharePoly : PriPoly (ZMod 13) := ⟨[12, 1]⟩

/-- A (1, 5) sharing of the secret 7 over the test suite: the constant
polynomial, which gives every party the share 7. -/
def constPoly : PriPoly (ZMod 13) := ⟨[7]⟩

/-- The message hash of the rational test suite: the sum of the bytes. -/
def ratHash (msg : List UInt8) : ℚ :=
  ((msg.foldl (fun a b => a + b.toNat) 0 : Nat) : ℚ)

/-- A pairing suite whose scalars and groups are the rational numbers, for
runs with more parties than a small field has elements: the base point is 1,
the pairing is multiplication, and a point is encoded by as many zero bytes
as its code number. -/
def ratSuite : PairingSuite ℚ ℚ ℚ ℚ where
  base2 := 1
  pairing := fun P Q => P * Q
  hashToG1 := ratHash
  marshal := fun P => List.replicate (Encodable.encode P) 0
  unmarshal := fun l => Encodable.decode l.length
  pairing_add_left := by intro P Q R; ring
  pairing_smul_left := by intro a P Q; simp only [smul_eq_mul]; ring
  pairing_add_right := by intro P Q R; ring
  pairing_smul_right := by intro a P Q; simp only [smul_eq_mul]; ring
  pairing_base_nondeg := by intro P h; simpa using h
  unmarshal_marshal := by intro P; simp

/-- A (2, 2^62) sharing of the secret 7 over the rational suite: 7 + 3 x. -/
def ratPoly : PriPoly ℚ := ⟨[7, 3]⟩

/-- The bytes of the message "dfinity". -/
def dfinityMsg : List UInt8 := [100, 102, 105, 110, 105, 116, 121]

/-- The signature ThresholdSign makes on "dfinity" with the share the test
polynomial gives to index i. -/
def toySig (i : Int) : ThresholdSig (ZMod 13) :=
  ThresholdSign toySuite (honestShare toySuite toyPoly i) dfinityMsg

end toy

section verify

variable {F G1 G2 GT : Type} [Field F] [AddCommGroup G1] [Module F G1]
  [AddCommGroup G2] [Module F G2] [AddCommGroup GT] [Module F GT]

theorem pairing_sub_left (s : PairingSuite F G1 G2 GT) (P Q : G1) (R : G2) :
    s.pairing (P - Q) R = s.pairing P R - s.pairing Q R := by
  have h := s.pairing_add_left (P - Q) Q R
  rw [sub_add_cancel] at h
  exact eq_sub_of_add_eq h.symm

theorem pairing_base_inj (s : PairingSuite F G1 G2 GT) (P Q : G1)
    (h : s.pairing P s.base2 = s.pairing Q s.base2) : P = Q := by
  have h0 : s.pairing (P - Q) s.base2 = 0 := by rw [pairing_sub_left, h, sub_self]
  exact sub_eq_zero.mp (s.pairing_base_nondeg _ h0)

theorem thresholdVerify_eq_decide [DecidableEq GT] (s : PairingSuite F G1 G2 GT) (pub : PubPoly G2)
    (msg : List UInt8) (sig : ThresholdSig G1) :
    ThresholdVerify s pub msg sig =
      decide (s.pairing sig.Sig s.base2 =
        s.pairing (hashed s msg) (PubPoly.Eval (F := F) pub sig.Index).V) := rfl

theorem thresholdVerify_iff [DecidableEq GT] (s : PairingSuite F G1 G2 GT) (pub : PubPoly G2)
    (msg : List UInt8) (sig : ThresholdSig G1) (x : F)
    (h : (PubPoly.Eval (F := F) pub sig.Index).V = x • s.base2) :
    ThresholdVerify s pub msg sig = true ↔ sig.Sig = x • hashed s msg := by
  rw [thresholdVerify_eq_decide, decide_eq_true_eq, h, s.pairing_smul_right,
    ← s.pairing_smul_left]
  constructor
  · exact pairing_base_inj s _ _
  · intro h1; rw [h1]

theorem commit_eval (p : PriPoly F) (b : G2) (i : Int) :
    (PubPoly.Eval (F := F) (p.Commit b) i).V = (p.Eval i).V • b := by
  obtain ⟨cs⟩ := p
  simp only [PriPoly.Commit, PubPoly.Eval, PriPoly.Eval]
  induction cs with
  | nil => simp
  | cons c cs ih =>
    simp only [List.map_cons, List.foldr_cons]
    rw [ih, add_smul, smul_smul, mul_comm]

/-- C3: ThresholdSign is a total function, and for every share (index I, value V)
and every message it returns the ThresholdSig whose Index is I and whose Sig
is the G1 point V · H(m), H(m) being the message hashed into G1. -/
theorem thresholdSign_output (s : PairingSuite F G1 G2 GT) (d : DistKeyShare F G2)
    (msg : List UInt8) :
    (ThresholdSign s d msg).Index = d.PriShare.I ∧
      (ThresholdSign s d msg).Sig = d.PriShare.V • hashed s msg :=
  ⟨rfl, rfl⟩

/-- C4: sign/verify round trip. When the public polynomial evaluates at the
index of the share to V · G2base, the signature ThresholdSign makes with that
share passes ThresholdVerify for the same message. -/
theorem sign_verify_roundtrip [DecidableEq GT] (s : PairingSuite F G1 G2 GT) (pub : PubPoly G2)
    (d : DistKeyShare F G2) (msg : List UInt8)
    (h : (PubPoly.Eval (F := F) pub d.PriShare.I).V = d.PriShare.V • s.base2) :
    ThresholdVerify s pub msg (ThresholdSign s d msg) = true :=
  (thresholdVerify_iff s pub msg (ThresholdSign s d msg) d.PriShare.V h).mpr rfl

/-- Witness of C4: party 3 of the test sharing signs "dfinity". -/
theorem sign_verify_roundtrip_witness :
    ThresholdVerify toySuite toyPub dfinityMsg
      (ThresholdSign toySuite (honestShare toySuite toyPoly 3) dfinityMsg) = true :=
  sign_verify_roundtrip toySuite toyPub (honestShare toySuite toyPoly 3) dfinityMsg
    (commit_eval toyPoly toySuite.base2 3)

/-- C5: characterisation of ThresholdVerify. When public.Eval(i) = x · G2base, a
candidate (i, S) passes exactly when S = x · H(m); and the value returned is
the equality test pairing(S, G2base) == pairing(H(m), public.Eval(i)). -/
theorem thresholdVerify_characterisation [DecidableEq GT] (s : PairingSuite F G1 G2 GT)
    (pub : PubPoly G2) (msg : List UInt8) (i : Int) (S : G1) (x : F)
    (h : (PubPoly.Eval (F := F) pub i).V = x • s.base2) :
    (ThresholdVerify s pub msg { Index := i, Sig := S } = true ↔ S = x • hashed s msg) ∧
      ThresholdVerify s pub msg { Index := i, Sig := S } =
        decide (s.pairing S s.base2 =
          s.pairing (hashed s msg) (PubPoly.Eval (F := F) pub i).V) :=
  ⟨thresholdVerify_iff s pub msg { Index := i, Sig := S } x h, rfl⟩

/-- Witness of C5: candidates for index 1 of the test sharing on "dfinity". -/
theorem thresholdVerify_characterisation_witness :
    (ThresholdVerify toySuite toyPub dfinityMsg { Index := 1, Sig := 1 } = true ↔
        (1 : ZMod 13) = (toyPoly.Eval 1).V • hashed toySuite dfinityMsg) ∧
      ThresholdVerify toySuite toyPub dfinityMsg { Index := 1, Sig := 1 } =
        decide (toySuite.pairing 1 toySuite.base2 =
          toySuite.pairing (hashed toySuite dfinityMsg)
            (PubPoly.Eval (F := ZMod 13) toyPub 1).V) :=
  thresholdVerify_characterisation toySuite toyPub dfinityMsg 1 1 (toyPoly.Eval 1).V
    (commit_eval toyPoly toySuite.base2 1)

/-- Counterexample to C6 as stated: the empty message hashes to the identity
of G1 in the test suite, so the candidate (0, 2 · H(m)) made with the scalar
2, which is not the share 12 of party 0, is the identity point and passes. -/
theorem forgery_accepted_at_identity_hash :
    (2 : ZMod 13) ≠ (toyPoly.Eval 0).V ∧
      (PubPoly.Eval (F := ZMod 13) toyPub 0).V = (toyPoly.Eval 0).V • toySuite.base2 ∧
      ThresholdVerify toySuite toyPub []
        { Index := 0, Sig := (2 : ZMod 13) • hashed toySuite [] } = true := by
  decide

/-- C6, amended: forgery rejection. When public.Eval(i) = x · G2base, the scalar y
differs from x and H(m) is not the identity of G1, the candidate
(i, y · H(m)) fails ThresholdVerify. -/
theorem forgery_rejected [DecidableEq GT] (s : PairingSuite F G1 G2 GT) (pub : PubPoly G2)
    (msg : List UInt8) (i : Int) (x y : F)
    (h : (PubPoly.Eval (F := F) pub i).V = x • s.base2) (hy : y ≠ x)
    (hH : hashed s msg ≠ 0) :
    ThresholdVerify s pub msg { Index := i, Sig := y • hashed s msg } = false := by
  rw [Bool.eq_false_iff]
  intro hv
  have h1 := (thresholdVerify_iff s pub msg { Index := i, Sig := y • hashed s msg } x h).mp hv
  have h2 : (y - x) • hashed s msg = 0 := by
    rw [sub_smul]; exact sub_eq_zero.mpr h1
  rcases smul_eq_zero.mp h2 with h3 | h3
  · exact hy (sub_eq_zero.mp h3)
  · exact hH h3

/-- Witness of C6, amended: the scalar 2 instead of the share of party 0, on
"dfinity". -/
theorem forgery_rejected_witness :
    ThresholdVerify toySuite toyPub dfinityMsg
      { Index := 0, Sig := (2 : ZMod 13) • hashed toySuite dfinityMsg } = false :=
  forgery_rejected toySuite toyPub dfinityMsg 0 (toyPoly.Eval 0).V 2
    (commit_eval toyPoly toySuite.base2 0) (by decide) (by decide)

/-- Counterexample to C10 as stated. Party 0 of the sharing 12 + x holds the
share 0, so its signature on the message [1] is the identity point and
passes for the different message [2]; and the messages [1] and [14] hash to
the same point of the test suite, so the signature party 0 of the test
sharing makes on [1] passes for [14]. -/
theorem signature_accepted_for_other_message :
    ((PubPoly.Eval (F := ZMod 13) (zeroSharePoly.Commit toySuite.base2) 0).V =
        (zeroSharePoly.Eval 0).V • toySuite.base2 ∧
      ([1] : List UInt8) ≠ [2] ∧
      ThresholdVerify toySuite (zeroSharePoly.Commit toySuite.base2) [2]
        (ThresholdSign toySuite (honestShare toySuite zeroSharePoly 0) [1]) = true) ∧
    ((PubPoly.Eval (F := ZMod 13) toyPub 0).V = (toyPoly.Eval 0).V • toySuite.base2 ∧
      ([1] : List UInt8) ≠ [14] ∧
      ThresholdVerify toySuite toyPub [14]
        (ThresholdSign toySuite (honestShare toySuite toyPoly 0) [1]) = true) := by
  decide

/-- C10, amended: message sensitivity. When public.Eval(I) = V · G2base for the
share (I, V), the value V is not zero and the two messages hash to different
points, the signature on m1 fails ThresholdVerify for m2. -/
theorem message_sensitivity [DecidableEq GT] (s : PairingSuite F G1 G2 GT) (pub : PubPoly G2)
    (d : DistKeyShare F G2) (m1 m2 : List UInt8)
    (h : (PubPoly.Eval (F := F) pub d.PriShare.I).V = d.PriShare.V • s.base2)
    (hV : d.PriShare.V ≠ 0) (hH : hashed s m1 ≠ hashed s m2) :
    ThresholdVerify s pub m2 (ThresholdSign s d m1) = false := by
  rw [Bool.eq_false_iff]
  intro hv
  have h1 : d.PriShare.V • hashed s m1 = d.PriShare.V • hashed s m2 :=
    (thresholdVerify_iff s pub m2 (ThresholdSign s d m1) d.PriShare.V h).mp hv
  have h2 : d.PriShare.V • (hashed s m1 - hashed s m2) = 0 := by
    rw [smul_sub]; exact sub_eq_zero.mpr h1
  rcases smul_eq_zero.mp h2 with h3 | h3
  · exact hV h3
  · exact hH (sub_eq_zero.mp h3)

/-- Witness of C10, amended: party 3 of the test sharing signs "dfinity", and the
signature is tried on the message [1]. -/
theorem message_sensitivity_witness :
    ThresholdVerify toySuite toyPub [1]
      (ThresholdSign toySuite (honestShare toySuite toyPoly 3) dfinityMsg) = false :=
  message_sensitivity toySuite toyPub (honestShare toySuite toyPoly 3) dfinityMsg [1]
    (commit_eval toyPoly toySuite.base2 3) (by decide) (by decide)

end verify

end bls

namespace share

section interpolation

open Polynomial

theorem horner_poly {F : Type} [Field F] (cs : List F) :
    ∃ f : F[X], f.degree < cs.length ∧ ∀ a, f.eval a = cs.foldr (fun c v => v * a + c) 0 := by
  induction cs with
  | nil => exact ⟨0, by simp, by simp⟩
  | cons c cs ih =>
    obtain ⟨f, hd, he⟩ := ih
    refine ⟨f * X + C c, ?_, ?_⟩
    · rw [degree_lt_iff_coeff_zero] at hd ⊢
      intro m hm
      cases m with
      | zero => simp at hm
      | succ k =>
        have hk : cs.length ≤ k := by simpa using hm
        simp [coeff_C, hd k hk]
    · intro a; simp [he]

theorem filter_ne_prod {F : Type} [Field F] [DecidableEq F] (xs : List F) (hnd : xs.Nodup)
    (a : F) (g : F → F) :
    ((xs.filter (fun b => decide (b ≠ a))).map g).prod = ∏ b ∈ xs.toFinset.erase a, g b := by
  rw [← List.prod_toFinset g (hnd.filter _)]
  refine Finset.prod_congr ?_ (fun _ _ => rfl)
  ext b
  simp [and_comm]

theorem lagrange_list {F : Type} [Field F] [DecidableEq F] (xs : List F) (hnd : xs.Nodup)
    (f : F[X]) (hdeg : f.degree < xs.length) :
    (xs.map (fun a =>
      (((xs.filter (fun b => decide (b ≠ a))).map (fun b => b)).prod /
        ((xs.filter (fun b => decide (b ≠ a))).map (fun b => b - a)).prod) * f.eval a)).sum
      = f.eval 0 := by
  have hcard : xs.toFinset.card = xs.length := List.toFinset_card_of_nodup hnd
  have hf := Lagrange.eq_interpolate (s := xs.toFinset) (v := id) (f := f)
    (Set.injOn_id _) (by rw [hcard]; exact hdeg)
  rw [← List.sum_toFinset _ hnd]
  conv_rhs => rw [hf]
  simp only [Lagrange.interpolate_apply, eval_finset_sum, eval_mul, eval_C, Lagrange.basis,
    eval_prod, Lagrange.basisDivisor, id, eval_sub, eval_X]
  refine Finset.sum_congr rfl (fun a ha => ?_)
  rw [filter_ne_prod xs hnd, filter_ne_prod xs hnd, ← Finset.prod_div_distrib, mul_comm]
  congr 1
  refine Finset.prod_congr rfl (fun b hb => ?_)
  have hba : b ≠ a := (Finset.mem_erase.mp hb).1
  have h1 : b - a ≠ 0 := sub_ne_zero.mpr hba
  have h2 : a - b ≠ 0 := sub_ne_zero.mpr hba.symm
  field_simp
  ring

theorem foldl_skip_mul {α M : Type} [CommMonoid M] (p : α → Prop) [DecidablePred p]
    (f : α → M) (l : List α) (init : M) :
    l.foldl (fun acc e => if p e then acc else acc * f e) init =
      init * ((l.filter (fun e => decide (¬ p e))).map f).prod := by
  induction l generalizing init with
  | nil => simp
  | cons e l ih =>
    rw [List.foldl_cons, ih]
    by_cases h : p e
    · simp [h]
    · simp [h, mul_assoc]

theorem foldl_add_map {α G : Type} [AddCommMonoid G] (f : α → G) (l : List α) (init : G) :
    l.foldl (fun acc e => acc + f e) init = init + (l.map f).sum := by
  induction l generalizing init with
  | nil => simp
  | cons e l ih => rw [List.foldl_cons, ih]; simp [add_assoc]

theorem sum_map_smul_point {α F G : Type} [Field F] [AddCommGroup G] [Module F G]
    (g : α → F) (H : G) (l : List α) :
    (l.map (fun e => g e • H)).sum = (l.map g).sum • H := by
  induction l with
  | nil => simp
  | cons e l ih => simp [ih, add_smul]

theorem xCommitAux_all {G : Type} (t : Int) (shares : List (PubShare G)) (i : Nat)
    (x : List (Nat × PubShare G))
    (hlen : ((x.length + shares.length : Nat) : Int) ≤ t) :
    xCommitAux t i shares x = x ++ shares.enumFrom i := by
  induction shares generalizing i x with
  | nil => simp [xCommitAux]
  | cons sh rest ih =>
    simp only [xCommitAux, List.enumFrom_cons]
    by_cases ht : ((x ++ [(i, sh)]).length : Int) = t
    · have hrest : rest = [] := by
        apply List.eq_nil_of_length_eq_zero
        simp only [List.length_append, List.length_cons, List.length_nil] at ht hlen
        omega
      subst hrest
      rw [if_pos ht]
      simp
    · rw [if_neg ht, ih (i + 1) (x ++ [(i, sh)])]
      · simp
      · simp only [List.length_append, List.length_cons, List.length_nil] at hlen ⊢
        omega

theorem lagrange_entries {F G : Type} [Field F] [AddCommGroup G] [Module F G]
    (L : List (Nat × PubShare G)) (f : F[X]) (H : G)
    (hpos : (L.map Prod.fst).Nodup) (hx : (L.map (fun e => shareX F e.2.I)).Nodup)
    (hdeg : f.degree < L.length)
    (hV : ∀ e ∈ L, e.2.V = f.eval (shareX F e.2.I) • H) :
    L.foldl (fun Acc e =>
      Acc + (lagrangeNum (F := F) L e.1 / lagrangeDen L e.1 (shareX F e.2.I)) • e.2.V) 0
      = f.eval 0 • H := by
  classical
  rw [foldl_add_map, zero_add]
  have hkey : ∀ e ∈ L, ∀ e' ∈ L, (¬ e.1 = e'.1) ↔ shareX F e'.2.I ≠ shareX F e.2.I := by
    intro e he e' he'
    constructor
    · intro h1 h2
      exact h1 (congrArg Prod.fst (List.inj_on_of_nodup_map hx he' he h2)).symm
    · intro h1 h2
      exact h1 (congrArg (fun e => shareX F e.2.I) (List.inj_on_of_nodup_map hpos he he' h2)).symm
  have hterm : ∀ e ∈ L,
      (lagrangeNum (F := F) L e.1 / lagrangeDen L e.1 (shareX F e.2.I)) • e.2.V =
      ((fun a => ((((L.map (fun e => shareX F e.2.I)).filter (fun b => decide (b ≠ a))).map
          (fun b => b)).prod /
        (((L.map (fun e => shareX F e.2.I)).filter (fun b => decide (b ≠ a))).map
          (fun b => b - a)).prod) * f.eval a) (shareX F e.2.I)) • H := by
    intro e he
    rw [hV e he, smul_smul]
    congr 2
    have hfil : L.filter (fun e' => decide (¬ e.1 = e'.1)) =
        L.filter (fun e' => decide (shareX F e'.2.I ≠ shareX F e.2.I)) := by
      apply List.filter_congr
      intro e' he'
      simp only [decide_eq_decide]
      exact hkey e he e' he'
    simp only [lagrangeNum, lagrangeDen, foldl_skip_mul, one_mul, hfil, List.filter_map,
      List.map_map]
    rfl
  rw [List.map_congr_left hterm]
  rw [sum_map_smul_point (fun e => _) H L]
  congr 1
  have := lagrange_list (L.map (fun e => shareX F e.2.I)) hx f (by simpa using hdeg)
  rw [List.map_map] at this
  exact this

theorem recoverCommit_honest {F G : Type} [Field F] [AddCommGroup G] [Module F G]
    (p : PriPoly F) (H : G) (shares : List (PubShare G)) (t n : Int)
    (hlen : (shares.length : Int) = t) (hcoef : (p.coeffs.length : Int) = t)
    (hnd : (shares.map (fun sh => shareX F sh.I)).Nodup)
    (hV : ∀ sh ∈ shares, sh.V = (p.Eval sh.I).V • H) :
    RecoverCommit F shares t n = Except.ok (p.coeffs.headD 0 • H) := by
  obtain ⟨f, hd, he⟩ := horner_poly p.coeffs
  have hx : xCommit shares t = shares.enumFrom 0 := by
    unfold xCommit
    rw [xCommitAux_all t shares 0 [] (by simp only [List.length_nil, zero_add]; omega)]
    simp
  have hsnd : ∀ e ∈ shares.enumFrom 0, e.2 ∈ shares := by
    intro e he'
    have := List.mem_map_of_mem Prod.snd he'
    rwa [List.enumFrom_map_snd] at this
  have hpos : ((shares.enumFrom 0).map Prod.fst).Nodup := by
    rw [List.enumFrom_map_fst]
    exact List.nodup_range' _ _
  have hxs : ((shares.enumFrom 0).map (fun e => shareX F e.2.I)).Nodup := by
    have h1 : (shares.enumFrom 0).map (fun e => shareX F e.2.I) =
        shares.map (fun sh => shareX F sh.I) := by
      conv_rhs => rw [← List.enumFrom_map_snd 0 shares]
      simp only [List.map_map]
      rfl
    rw [h1]
    exact hnd
  have hdeg : f.degree < (shares.enumFrom 0).length := by
    have : shares.length = p.coeffs.length := by omega
    rw [List.enumFrom_length, this]
    exact hd
  have hV' : ∀ e ∈ shares.enumFrom 0, e.2.V = f.eval (shareX F e.2.I) • H := by
    intro e he'
    rw [hV e.2 (hsnd e he'), he]
    rfl
  have h0 : f.eval 0 = p.coeffs.headD 0 := by
    rw [he]
    cases p.coeffs <;> simp
  unfold RecoverCommit
  simp only [hx]
  rw [if_neg (by rw [List.enumFrom_length]; omega), lagrange_entries _ f H hpos hxs hdeg hV', h0]

end interpolation

end share

namespace bls

open share

section aggregation

variable {F G1 G2 GT : Type} [Field F] [AddCommGroup G1] [Module F G1]
  [AddCommGroup G2] [Module F G2] [AddCommGroup GT] [Module F GT] {cap : Int}

theorem collectShares_eq [DecidableEq GT] (s : PairingSuite F G1 G2 GT) (pub : PubPoly G2)
    (msg : List UInt8) (t : Int) (sigs : List (ThresholdSig G1)) (acc : List (PubShare G1))
    (hacc : (acc.length : Int) < t) :
    collectShares s pub msg t sigs acc =
      acc ++ (((sigs.filter (ThresholdVerify s pub msg)).map
        (fun sig => ({ V := sig.Sig, I := sig.Index } : PubShare G1))).take
          (t.toNat - acc.length)) := by
  induction sigs generalizing acc with
  | nil => simp [collectShares]
  | cons sig rest ih =>
    by_cases hv : ThresholdVerify s pub msg sig = true
    · simp only [collectShares, hv, Bool.not_true, List.filter_cons_of_pos, List.map_cons]
      by_cases hge : ((acc ++ [({ V := sig.Sig, I := sig.Index } : PubShare G1)]).length : Int) ≥ t
      · have h1 : t.toNat - acc.length = 1 := by
          simp only [List.length_append, List.length_cons, List.length_nil] at hge
          omega
        rw [if_pos hge, h1]
        simp
      · have hlt : ((acc ++ [({ V := sig.Sig, I := sig.Index } : PubShare G1)]).length : Int) < t := by
          omega
        have h1 : t.toNat - acc.length =
            (t.toNat - (acc ++ [({ V := sig.Sig, I := sig.Index } : PubShare G1)]).length) + 1 := by
          simp only [List.length_append, List.length_cons, List.length_nil] at hlt ⊢
          omega
        rw [if_neg hge, ih _ hlt, h1, List.take_succ_cons]
        simp
    · have hv' : ThresholdVerify s pub msg sig = false := by simpa using hv
      simp only [collectShares, hv', Bool.not_false, if_true, List.filter_cons_of_neg hv]
      exact ih acc hacc

theorem collectShares_length_le [DecidableEq GT] (s : PairingSuite F G1 G2 GT) (pub : PubPoly G2)
    (msg : List UInt8) (t : Int) (sigs : List (ThresholdSig G1)) (ht : 1 ≤ t) :
    (collectShares s pub msg t sigs []).length ≤
      (sigs.filter (ThresholdVerify s pub msg)).length := by
  rw [collectShares_eq s pub msg t sigs [] (by simp only [List.length_nil]; omega)]
  simp only [List.nil_append, List.length_take, List.length_map]
  exact Nat.min_le_right _ _

theorem collectSharesRaw_toRaw [DecidableEq GT] (s : PairingSuite F G1 G2 GT) (pub : PubPoly G2)
    (msg : List UInt8) (t : Int) (sigs : List (ThresholdSig G1)) (acc : List (PubShare G1)) :
    collectSharesRaw s pub msg t (sigs.map ThresholdSig.toRaw) acc =
      Except.ok (collectShares s pub msg t sigs acc) := by
  induction sigs generalizing acc with
  | nil => rfl
  | cons sig rest ih =>
    simp only [List.map_cons, ThresholdSig.toRaw, collectSharesRaw, collectShares]
    by_cases hv : ThresholdVerify s pub msg sig = true
    · simp only [hv, Bool.not_true, Bool.false_eq_true, if_false]
      by_cases hge : ((acc ++ [({ V := sig.Sig, I := sig.Index } : PubShare G1)]).length : Int) ≥ t
      · rw [if_pos hge, if_pos hge]
      · rw [if_neg hge, if_neg hge]
        exact ih _
    · have hv' : ThresholdVerify s pub msg sig = false := by simpa using hv
      simp only [hv', Bool.not_false, if_true]
      exact ih _

theorem aggregateWith_eq [DecidableEq GT]
    (recover : List (PubShare G1) → Int → Int → Except String G1)
    (verify : G2 → List UInt8 → List UInt8 → Option String)
    (s : PairingSuite F G1 G2 GT) (pub : PubPoly G2) (msg : List UInt8)
    (sigs : List (ThresholdSig G1)) (n t : Int) :
    AggregateSignaturesWith cap recover verify s pub msg sigs n t =
      if n < 0 ∨ min cap maxSliceCap < n then
        AggResult.panic "makeslice: cap out of range"
      else if ((collectShares s pub msg t sigs []).length : Int) < t then
        AggResult.err "not enough valid threshold bls signatures"
      else
        match recover (collectShares s pub msg t sigs []) t n with
        | Except.error err => AggResult.err err
        | Except.ok sig =>
          match pub.Commit with
          | none => AggResult.panic "index out of range"
          | some pk =>
            match verify pk msg (s.marshal sig) with
            | some _ => AggResult.panic "math is wrong?"
            | none => AggResult.sig (s.marshal sig) := by
  unfold AggregateSignaturesWith AggregateSignaturesRawWith
  rw [collectSharesRaw_toRaw]

theorem aggregateRawWith_make_panics [DecidableEq GT]
    (recover : List (PubShare G1) → Int → Int → Except String G1)
    (verify : G2 → List UInt8 → List UInt8 → Option String)
    (s : PairingSuite F G1 G2 GT) (pub : PubPoly G2) (msg : List UInt8)
    (sigs : List (Option (RawThresholdSig G1))) (n t : Int) (h : n < 0 ∨ min cap maxSliceCap < n) :
    AggregateSignaturesRawWith cap recover verify s pub msg sigs n t =
      AggResult.panic "makeslice: cap out of range" := by
  unfold AggregateSignaturesRawWith
  rw [if_pos h]

theorem aggregate_make_panics [DecidableEq GT]
    (s : PairingSuite F G1 G2 GT) (pub : PubPoly G2) (msg : List UInt8)
    (sigs : List (ThresholdSig G1)) (n t : Int) (h : n < 0 ∨ min cap maxSliceCap < n) :
    AggregateSignatures cap s pub msg sigs n t = AggResult.panic "makeslice: cap out of range" := by
  unfold AggregateSignatures AggregateSignaturesWith
  exact aggregateRawWith_make_panics _ _ s pub msg _ n t h

theorem verify_group_signature [DecidableEq GT] (s : PairingSuite F G1 G2 GT) (x : F)
    (msg : List UInt8) :
    Verify s (x • s.base2) msg (s.marshal (x • hashed s msg)) = none := by
  unfold Verify
  rw [s.unmarshal_marshal]
  simp only [s.pairing_smul_right, s.pairing_smul_left, if_true]

theorem commit_commit (p : PriPoly F) (b : G2) (hne : p.coeffs ≠ []) :
    (p.Commit b).Commit = some (p.coeffs.headD 0 • b) := by
  obtain ⟨cs⟩ := p
  cases cs with
  | nil => exact absurd rfl hne
  | cons c cs => rfl

theorem aggregate_of_valid [DecidableEq GT] (s : PairingSuite F G1 G2 GT) (p : PriPoly F)
    (msg : List UInt8) (sigs : List (ThresholdSig G1)) (n t : Int)
    (hv : ValidSharing p n t) (hcap : n ≤ min cap maxSliceCap)
    (hcount : t ≤ ((sigs.filter (ThresholdVerify s (p.Commit s.base2) msg)).length : Int))
    (hnd : (((sigs.filter (ThresholdVerify s (p.Commit s.base2) msg)).take t.toNat).map
      (fun sig => shareX F sig.Index)).Nodup) :
    RecoverCommit F (collectShares s (p.Commit s.base2) msg t sigs []) t n =
        Except.ok (p.coeffs.headD 0 • hashed s msg) ∧
      AggregateSignatures cap s (p.Commit s.base2) msg sigs n t =
        AggResult.sig (s.marshal (p.coeffs.headD 0 • hashed s msg)) := by
  obtain ⟨ht1, htn, hcoef, _⟩ := hv
  have hcs : collectShares s (p.Commit s.base2) msg t sigs [] =
      ((sigs.filter (ThresholdVerify s (p.Commit s.base2) msg)).take t.toNat).map
        (fun sig => ({ V := sig.Sig, I := sig.Index } : PubShare G1)) := by
    rw [collectShares_eq s _ msg t sigs [] (by simp only [List.length_nil]; omega)]
    simp [List.map_take]
  have hlen : ((collectShares s (p.Commit s.base2) msg t sigs []).length : Int) = t := by
    rw [hcs, List.length_map, List.length_take]
    omega
  have hrec : RecoverCommit F (collectShares s (p.Commit s.base2) msg t sigs []) t n =
      Except.ok (p.coeffs.headD 0 • hashed s msg) := by
    refine recoverCommit_honest p (hashed s msg) _ t n hlen hcoef ?_ ?_
    · rw [hcs, List.map_map]
      exact hnd
    · intro sh hsh
      rw [hcs] at hsh
      obtain ⟨sig, hsig, rfl⟩ := List.mem_map.mp hsh
      have hval := (List.mem_filter.mp (List.mem_of_mem_take hsig)).2
      exact (thresholdVerify_iff s _ msg sig _ (commit_eval p s.base2 sig.Index)).mp hval
  have hne : p.coeffs ≠ [] := by
    intro h0
    rw [h0] at hcoef
    simp only [List.length_nil] at hcoef
    omega
  refine ⟨hrec, ?_⟩
  unfold AggregateSignatures
  rw [aggregateWith_eq, if_neg (by omega), if_neg (by omega)]
  simp only [hrec, commit_commit p s.base2 hne, verify_group_signature]

theorem honest_passes [DecidableEq GT] (s : PairingSuite F G1 G2 GT) (p : PriPoly F)
    (msg : List UInt8) (i : Int) :
    ThresholdVerify s (p.Commit s.base2) msg (ThresholdSign s (honestShare s p i) msg) = true :=
  (thresholdVerify_iff s (p.Commit s.base2) msg (ThresholdSign s (honestShare s p i) msg)
    (p.Eval i).V (commit_eval p s.base2 i)).mpr rfl

theorem honestSigs_filter [DecidableEq GT] (s : PairingSuite F G1 G2 GT) (p : PriPoly F)
    (msg : List UInt8) (idxs : List Int) :
    (honestSigs s p msg idxs).filter (ThresholdVerify s (p.Commit s.base2) msg) =
      honestSigs s p msg idxs := by
  rw [List.filter_eq_self]
  intro sig hsig
  obtain ⟨i, _, rfl⟩ := List.mem_map.mp hsig
  exact honest_passes s p msg i

theorem honestSigs_index (s : PairingSuite F G1 G2 GT) (p : PriPoly F)
    (msg : List UInt8) (idxs : List Int) :
    (honestSigs s p msg idxs).map (fun sig => sig.Index) = idxs := by
  unfold honestSigs
  rw [List.map_map]
  exact List.map_id _

theorem aggregate_honest [DecidableEq GT] (s : PairingSuite F G1 G2 GT) (p : PriPoly F)
    (msg : List UInt8) (idxs : List Int) (n t : Int)
    (hv : ValidSharing p n t) (hcap : n ≤ min cap maxSliceCap)
    (hlen : (idxs.length : Int) = t) (hnd : idxs.Nodup)
    (hr : ∀ i ∈ idxs, 0 ≤ i ∧ i < n) :
    RecoverCommit F (collectShares s (p.Commit s.base2) msg t (honestSigs s p msg idxs) []) t n =
        Except.ok (p.coeffs.headD 0 • hashed s msg) ∧
      AggregateSignatures cap s (p.Commit s.base2) msg (honestSigs s p msg idxs) n t =
        AggResult.sig (s.marshal (p.coeffs.headD 0 • hashed s msg)) := by
  have hl : (honestSigs s p msg idxs).length = idxs.length := by
    unfold honestSigs; exact List.length_map _ _
  have htake : (honestSigs s p msg idxs).take t.toNat = honestSigs s p msg idxs := by
    apply List.take_of_length_le
    omega
  apply aggregate_of_valid s p msg _ n t hv hcap
  · rw [honestSigs_filter, hl]; omega
  · rw [honestSigs_filter, htake]
    have hmap : (honestSigs s p msg idxs).map (fun sig => shareX F sig.Index) =
        idxs.map (shareX F) := by
      unfold honestSigs
      rw [List.map_map]
      rfl
    rw [hmap]
    refine List.Nodup.map_on ?_ hnd
    intro i hi j hj hij
    exact hv.2.2.2 i j (hr i hi).1 (hr i hi).2 (hr j hj).1 (hr j hj).2 hij

theorem toyPoly_valid : ValidSharing toyPoly 5 3 := by
  refine ⟨by norm_num, by norm_num, rfl, ?_⟩
  intro i j hi0 hi hj0 hj h
  interval_cases i <;> interval_cases j <;> first | rfl | (exfalso; revert h; decide)

theorem toy_cap : (5 : Int) ≤ min maxSliceCap maxSliceCap := by decide

theorem ratPoly_valid : ValidSharing ratPoly (2 ^ 62) 2 := by
  refine ⟨by norm_num, by norm_num, rfl, ?_⟩
  intro i j hi0 hi hj0 hj h
  unfold shareX at h
  have h' := Int.cast_injective h
  omega

theorem large_cap : min maxSliceCap maxSliceCap < (2 : Int) ^ 62 := by decide

/-- Counterexample to C1 as stated: 7 + 3 x over the rational suite is a valid
(2, 2^62) sharing and parties 0 and 1 sign "dfinity", yet AggregateSignatures
returns no signature: the initial make with capacity 2^62 panics, even where
the runtime grants the largest capacity of a 64-bit platform. -/
theorem aggregate_panics_for_large_sharing :
    ValidSharing ratPoly (2 ^ 62) 2 ∧ ([0, 1] : List Int).Nodup ∧
      (∀ i ∈ ([0, 1] : List Int), 0 ≤ i ∧ i < 2 ^ 62) ∧
      AggregateSignatures maxSliceCap ratSuite (ratPoly.Commit ratSuite.base2) dfinityMsg
        (honestSigs ratSuite ratPoly dfinityMsg [0, 1]) (2 ^ 62) 2 =
        AggResult.panic "makeslice: cap out of range" :=
  ⟨ratPoly_valid, by decide, by decide,
    aggregate_make_panics ratSuite _ dfinityMsg _ (2 ^ 62) 2 (Or.inr large_cap)⟩

/-- C1, amended: end-to-end correctness. For a valid (t, n) sharing whose party count n
does not exceed the capacity make accepts, every message and every list of t
signatures made by ThresholdSign for t distinct parties of the sharing,
AggregateSignatures returns a signature (no error, no panic), and that
signature passes the ordinary BLS check against public.Commit(). -/
theorem aggregate_end_to_end [DecidableEq GT] (s : PairingSuite F G1 G2 GT) (p : PriPoly F)
    (msg : List UInt8) (idxs : List Int) (n t : Int)
    (hv : ValidSharing p n t) (hcap : n ≤ min cap maxSliceCap)
    (hlen : (idxs.length : Int) = t) (hnd : idxs.Nodup)
    (hr : ∀ i ∈ idxs, 0 ≤ i ∧ i < n) :
    ∃ buff pk,
      AggregateSignatures cap s (p.Commit s.base2) msg (honestSigs s p msg idxs) n t =
        AggResult.sig buff ∧
      (p.Commit s.base2).Commit = some pk ∧ Verify s pk msg buff = none := by
  have hne : p.coeffs ≠ [] := by
    intro h0
    have := hv.2.2.1
    rw [h0] at this
    have := hv.1
    simp only [List.length_nil] at *
    omega
  exact ⟨_, _, (aggregate_honest s p msg idxs n t hv hcap hlen hnd hr).2,
    commit_commit p s.base2 hne, verify_group_signature s _ msg⟩

/-- Witness of C1, amended: parties 1, 3 and 4 of the (3, 5) test sharing sign
"dfinity". -/
theorem aggregate_end_to_end_witness :
    ∃ buff pk,
      AggregateSignatures maxSliceCap toySuite toyPub dfinityMsg
        (honestSigs toySuite toyPoly dfinityMsg [1, 3, 4]) 5 3 = AggResult.sig buff ∧
      toyPub.Commit = some pk ∧ Verify toySuite pk dfinityMsg buff = none :=
  aggregate_end_to_end toySuite toyPoly dfinityMsg [1, 3, 4] 5 3 toyPoly_valid toy_cap rfl
    (by decide) (by decide)

/-- Counterexample to C2 as stated: in the valid (2, 2^62) sharing 7 + 3 x over
the rational suite, with the signatures of parties 1 and 0 on "dfinity",
AggregateSignatures recovers no point and returns no bytes, so what it
returns is not the BLS signature under the group secret: the initial make
panics. -/
theorem aggregate_returns_no_group_signature :
    ValidSharing ratPoly (2 ^ 62) 2 ∧ ([1, 0] : List Int).Nodup ∧
      (∀ i ∈ ([1, 0] : List Int), 0 ≤ i ∧ i < 2 ^ 62) ∧
      AggregateSignatures maxSliceCap ratSuite (ratPoly.Commit ratSuite.base2) dfinityMsg
        (honestSigs ratSuite ratPoly dfinityMsg [1, 0]) (2 ^ 62) 2 ≠
        AggResult.sig (Sign ratSuite ratPoly.Secret dfinityMsg) := by
  refine ⟨ratPoly_valid, by decide, by decide, ?_⟩
  have h : AggregateSignatures maxSliceCap ratSuite (ratPoly.Commit ratSuite.base2) dfinityMsg
      (honestSigs ratSuite ratPoly dfinityMsg [1, 0]) (2 ^ 62) 2 =
      AggResult.panic "makeslice: cap out of range" :=
    aggregate_make_panics ratSuite _ dfinityMsg _ (2 ^ 62) 2 (Or.inr large_cap)
  rw [h]
  intro h'
  cases h'

/-- C2, amended: for a valid (t, n) sharing of a secret whose party count n does not
exceed the capacity make accepts, and t signatures of distinct parties of the
sharing, the point the recovery primitive returns inside AggregateSignatures
is secret · H(m), and the bytes returned are the ordinary BLS signature of m
under the group secret. -/
theorem aggregate_is_group_signature [DecidableEq GT] (s : PairingSuite F G1 G2 GT)
    (p : PriPoly F) (msg : List UInt8) (idxs : List Int) (n t : Int)
    (hv : ValidSharing p n t) (hcap : n ≤ min cap maxSliceCap)
    (hlen : (idxs.length : Int) = t) (hnd : idxs.Nodup)
    (hr : ∀ i ∈ idxs, 0 ≤ i ∧ i < n) :
    RecoverCommit F (collectShares s (p.Commit s.base2) msg t (honestSigs s p msg idxs) []) t n =
        Except.ok (p.Secret • hashed s msg) ∧
      AggregateSignatures cap s (p.Commit s.base2) msg (honestSigs s p msg idxs) n t =
        AggResult.sig (Sign s p.Secret msg) :=
  aggregate_honest s p msg idxs n t hv hcap hlen hnd hr

/-- Witness of C2, amended: parties 0, 2 and 4 of the test sharing; the secret is
7. -/
theorem aggregate_is_group_signature_witness :
    RecoverCommit (ZMod 13)
        (collectShares toySuite toyPub dfinityMsg 3
          (honestSigs toySuite toyPoly dfinityMsg [0, 2, 4]) []) 3 5 =
        Except.ok ((7 : ZMod 13) • hashed toySuite dfinityMsg) ∧
      AggregateSignatures maxSliceCap toySuite toyPub dfinityMsg
        (honestSigs toySuite toyPoly dfinityMsg [0, 2, 4]) 5 3 =
        AggResult.sig (Sign toySuite 7 dfinityMsg) :=
  aggregate_is_group_signature toySuite toyPoly dfinityMsg [0, 2, 4] 5 3 toyPoly_valid toy_cap
    rfl (by decide) (by decide)

theorem aggregateWith_recover_error [DecidableEq GT]
    (recover : List (PubShare G1) → Int → Int → Except String G1)
    (verify : G2 → List UInt8 → List UInt8 → Option String)
    (s : PairingSuite F G1 G2 GT) (pub : PubPoly G2) (msg : List UInt8)
    (sigs : List (ThresholdSig G1)) (n t : Int) (e : String) (hn : 0 ≤ n)
    (hcap : n ≤ min cap maxSliceCap)
    (hacc : t ≤ ((collectShares s pub msg t sigs []).length : Int))
    (hrec : recover (collectShares s pub msg t sigs []) t n = Except.error e) :
    AggregateSignaturesWith cap recover verify s pub msg sigs n t = AggResult.err e := by
  rw [aggregateWith_eq, if_neg (by omega), if_neg (by omega)]
  simp only [hrec]

theorem aggregateWith_check_fails [DecidableEq GT]
    (recover : List (PubShare G1) → Int → Int → Except String G1)
    (verify : G2 → List UInt8 → List UInt8 → Option String)
    (s : PairingSuite F G1 G2 GT) (pub : PubPoly G2) (msg : List UInt8)
    (sigs : List (ThresholdSig G1)) (n t : Int) (P : G1) (pk : G2) (e : String) (hn : 0 ≤ n)
    (hcap : n ≤ min cap maxSliceCap)
    (hacc : t ≤ ((collectShares s pub msg t sigs []).length : Int))
    (hrec : recover (collectShares s pub msg t sigs []) t n = Except.ok P)
    (hpk : pub.Commit = some pk) (hver : verify pk msg (s.marshal P) = some e) :
    AggregateSignaturesWith cap recover verify s pub msg sigs n t =
      AggResult.panic "math is wrong?" := by
  rw [aggregateWith_eq, if_neg (by omega), if_neg (by omega)]
  simp only [hrec, hpk, hver]

theorem aggregateWith_insufficient [DecidableEq GT]
    (recover : List (PubShare G1) → Int → Int → Except String G1)
    (verify : G2 → List UInt8 → List UInt8 → Option String)
    (s : PairingSuite F G1 G2 GT) (pub : PubPoly G2) (msg : List UInt8)
    (sigs : List (ThresholdSig G1)) (n t : Int) (hn : 0 ≤ n) (hcap : n ≤ min cap maxSliceCap)
    (hlt : ((collectShares s pub msg t sigs []).length : Int) < t) :
    AggregateSignaturesWith cap recover verify s pub msg sigs n t =
      AggResult.err "not enough valid threshold bls signatures" := by
  rw [aggregateWith_eq, if_neg (by omega), if_pos hlt]

theorem recoverCommit_error_eq (shares : List (PubShare G1)) (t n : Int) (e : String)
    (h : RecoverCommit F shares t n = Except.error e) :
    e = "share: not enough good public shares to reconstruct secret commitment" := by
  unfold RecoverCommit at h
  simp only at h
  split_ifs at h
  injection h with h'
  exact h'.symm

theorem aggregateRaw_ne_notEnough [DecidableEq GT]
    (s : PairingSuite F G1 G2 GT) (pub : PubPoly G2) (msg : List UInt8)
    (sigs : List (Option (RawThresholdSig G1))) (n t : Int)
    (hacc : ∀ shares, collectSharesRaw s pub msg t sigs [] = Except.ok shares →
      t ≤ (shares.length : Int)) :
    AggregateSignaturesRaw cap s pub msg sigs n t ≠
      AggResult.err "not enough valid threshold bls signatures" := by
  unfold AggregateSignaturesRaw AggregateSignaturesRawWith
  by_cases hn : n < 0 ∨ min cap maxSliceCap < n
  · rw [if_pos hn]
    intro h
    cases h
  · rw [if_neg hn]
    cases hcs : collectSharesRaw s pub msg t sigs [] with
    | error v =>
      simp only
      intro h
      cases h
    | ok shares =>
      have hle := hacc shares hcs
      simp only
      rw [if_neg (by omega)]
      cases hrec : RecoverCommit F shares t n with
      | error e =>
        have he := recoverCommit_error_eq (F := F) _ t n e hrec
        subst he
        simp only
        decide
      | ok P =>
        simp only
        cases pub.Commit with
        | none => intro h; cases h
        | some pk =>
          simp only
          cases Verify s pk msg (s.marshal P) with
          | some e => intro h; cases h
          | none => intro h; cases h

theorem aggregate_ne_notEnough [DecidableEq GT]
    (s : PairingSuite F G1 G2 GT) (pub : PubPoly G2) (msg : List UInt8)
    (sigs : List (ThresholdSig G1)) (n t : Int)
    (hacc : t ≤ ((collectShares s pub msg t sigs []).length : Int)) :
    AggregateSignatures cap s pub msg sigs n t ≠
      AggResult.err "not enough valid threshold bls signatures" := by
  refine aggregateRaw_ne_notEnough s pub msg (sigs.map ThresholdSig.toRaw) n t ?_
  intro shares hsh
  rw [collectSharesRaw_toRaw] at hsh
  injection hsh with hsh
  rw [← hsh]
  exact hacc

theorem collectShares_nonpos [DecidableEq GT] (s : PairingSuite F G1 G2 GT) (pub : PubPoly G2)
    (msg : List UInt8) (t : Int) (ht : t ≤ 0) (sigs : List (ThresholdSig G1)) :
    collectShares s pub msg t sigs [] =
      ((sigs.filter (ThresholdVerify s pub msg)).take 1).map
        (fun sig => ({ V := sig.Sig, I := sig.Index } : PubShare G1)) := by
  induction sigs with
  | nil => simp [collectShares]
  | cons sig rest ih =>
    by_cases hv : ThresholdVerify s pub msg sig = true
    · have hge : ((([] : List (PubShare G1)) ++
          [({ V := sig.Sig, I := sig.Index } : PubShare G1)]).length : Int) ≥ t := by
        simp only [List.nil_append, List.length_cons, List.length_nil]
        omega
      simp only [collectShares, hv, Bool.not_true, List.filter_cons_of_pos]
      rw [if_pos hge]
      simp
    · have hv' : ThresholdVerify s pub msg sig = false := by simpa using hv
      simp only [collectShares, hv', Bool.not_false, if_true, List.filter_cons_of_neg hv]
      exact ih

theorem collectShares_take [DecidableEq GT] (s : PairingSuite F G1 G2 GT) (pub : PubPoly G2)
    (msg : List UInt8) (t : Int) (ht : 1 ≤ t) (sigs : List (ThresholdSig G1)) :
    collectShares s pub msg t sigs [] =
      ((sigs.filter (ThresholdVerify s pub msg)).take t.toNat).map
        (fun sig => ({ V := sig.Sig, I := sig.Index } : PubShare G1)) := by
  rw [collectShares_eq s pub msg t sigs [] (by simp only [List.length_nil]; omega)]
  simp [List.map_take]

set_option maxRecDepth 100000 in
theorem toy_two_valid :
    ((List.filter (ThresholdVerify toySuite toyPub dfinityMsg)
        [ThresholdSign toySuite (honestShare toySuite toyPoly 1) dfinityMsg,
          ThresholdSign toySuite (honestShare toySuite toyPoly 3) dfinityMsg,
          { Index := 2,
            Sig := (ThresholdSign toySuite (honestShare toySuite toyPoly 4) dfinityMsg).Sig }]).length
      : Int) < 3 := by
  decide

set_option maxRecDepth 100000 in
theorem toy_nil_entry_panics :
    AggregateSignaturesRaw maxSliceCap toySuite toyPub dfinityMsg [(toySig 1).toRaw, none] 5 2 =
      AggResult.panic "invalid memory address or nil pointer dereference" := by
  decide

/-- Counterexample to C7 as stated, with the threshold 2 and one passing
candidate on the test sharing: for the party count -1 and for the party count
2^62 the initial make panics, and with a nil entry after the passing
candidate the call of ThresholdVerify panics; in none of the three runs is
the error "not enough valid threshold bls signatures" returned. -/
theorem insufficient_shares_panics :
    AggregateSignaturesRaw maxSliceCap toySuite toyPub dfinityMsg [(toySig 1).toRaw] (-1) 2 =
        AggResult.panic "makeslice: cap out of range" ∧
      AggregateSignaturesRaw maxSliceCap toySuite toyPub dfinityMsg [(toySig 1).toRaw] (2 ^ 62) 2 =
        AggResult.panic "makeslice: cap out of range" ∧
      AggregateSignaturesRaw maxSliceCap toySuite toyPub dfinityMsg [(toySig 1).toRaw, none] 5 2 =
        AggResult.panic "invalid memory address or nil pointer dereference" :=
  ⟨aggregateRawWith_make_panics _ _ toySuite toyPub dfinityMsg _ (-1) 2 (Or.inl (by decide)),
    aggregateRawWith_make_panics _ _ toySuite toyPub dfinityMsg _ (2 ^ 62) 2 (Or.inr large_cap),
    toy_nil_entry_panics⟩

/-- C7, amended: insufficient shares. For t ≥ 1, a party count n that make accepts
(0 ≤ n ≤ min cap maxSliceCap) and a list of candidates that are all present and hold
a point, when fewer than t candidates pass ThresholdVerify,
AggregateSignatures returns the error "not enough valid threshold bls
signatures" and no signature; the same holds whatever the recovery primitive
and the final check are, so neither is consulted. -/
theorem insufficient_shares [DecidableEq GT]
    (recover : List (PubShare G1) → Int → Int → Except String G1)
    (verify : G2 → List UInt8 → List UInt8 → Option String)
    (s : PairingSuite F G1 G2 GT) (pub : PubPoly G2) (msg : List UInt8)
    (sigs : List (ThresholdSig G1)) (n t : Int) (ht : 1 ≤ t) (hn : 0 ≤ n)
    (hcap : n ≤ min cap maxSliceCap)
    (hfew : ((sigs.filter (ThresholdVerify s pub msg)).length : Int) < t) :
    AggregateSignaturesRaw cap s pub msg (sigs.map ThresholdSig.toRaw) n t =
        AggResult.err "not enough valid threshold bls signatures" ∧
      AggregateSignaturesRawWith cap recover verify s pub msg (sigs.map ThresholdSig.toRaw) n t =
        AggResult.err "not enough valid threshold bls signatures" := by
  have hl := collectShares_length_le s pub msg t sigs ht
  have hlt : ((collectShares s pub msg t sigs []).length : Int) < t := by omega
  exact ⟨aggregateWith_insufficient (RecoverCommit F) (Verify s) s pub msg sigs n t hn hcap hlt,
    aggregateWith_insufficient recover verify s pub msg sigs n t hn hcap hlt⟩

/-- Witness of C7, amended: two valid signatures and one relabelled one,
threshold 3. -/
theorem insufficient_shares_witness :
    AggregateSignaturesRaw maxSliceCap toySuite toyPub dfinityMsg
        (List.map ThresholdSig.toRaw
          [ThresholdSign toySuite (honestShare toySuite toyPoly 1) dfinityMsg,
            ThresholdSign toySuite (honestShare toySuite toyPoly 3) dfinityMsg,
            { Index := 2,
              Sig := (ThresholdSign toySuite (honestShare toySuite toyPoly 4) dfinityMsg).Sig }])
        5 3 =
        AggResult.err "not enough valid threshold bls signatures" ∧
      AggregateSignaturesRawWith maxSliceCap (fun _ _ _ => Except.ok 0) (fun _ _ _ => none) toySuite toyPub
        dfinityMsg
        (List.map ThresholdSig.toRaw
          [ThresholdSign toySuite (honestShare toySuite toyPoly 1) dfinityMsg,
            ThresholdSign toySuite (honestShare toySuite toyPoly 3) dfinityMsg,
            { Index := 2,
              Sig := (ThresholdSign toySuite (honestShare toySuite toyPoly 4) dfinityMsg).Sig }])
        5 3 =
        AggResult.err "not enough valid threshold bls signatures" :=
  insufficient_shares _ _ toySuite toyPub dfinityMsg _ 5 3 (by decide) (by decide) toy_cap
    toy_two_valid

/-- C9: no unverified output. Whenever AggregateSignatures returns bytes with a
nil error, the bytes are the encoding of the point the recovery primitive
returned, and they passed the ordinary BLS check against public.Commit() and
the message. -/
theorem no_unverified_output [DecidableEq GT] (s : PairingSuite F G1 G2 GT) (pub : PubPoly G2)
    (msg : List UInt8) (sigs : List (ThresholdSig G1)) (n t : Int) (buff : List UInt8)
    (h : AggregateSignatures cap s pub msg sigs n t = AggResult.sig buff) :
    ∃ pk P, pub.Commit = some pk ∧
      RecoverCommit F (collectShares s pub msg t sigs []) t n = Except.ok P ∧
      buff = s.marshal P ∧ Verify s pk msg buff = none := by
  unfold AggregateSignatures at h
  rw [aggregateWith_eq] at h
  by_cases hn : n < 0 ∨ min cap maxSliceCap < n
  · rw [if_pos hn] at h
    cases h
  · rw [if_neg hn] at h
    by_cases hl : ((collectShares s pub msg t sigs []).length : Int) < t
    · rw [if_pos hl] at h
      cases h
    · rw [if_neg hl] at h
      cases hrec : RecoverCommit F (collectShares s pub msg t sigs []) t n with
      | error e =>
        rw [hrec] at h
        cases h
      | ok P =>
        rw [hrec] at h
        cases hpk : pub.Commit with
        | none =>
          rw [hpk] at h
          cases h
        | some pk =>
          rw [hpk] at h
          simp only at h
          cases hver : Verify s pk msg (s.marshal P) with
          | some e =>
            rw [hver] at h
            cases h
          | none =>
            rw [hver] at h
            simp only at h
            have hb : s.marshal P = buff := by
              injection h
            exact ⟨pk, P, rfl, rfl, hb.symm, hb ▸ hver⟩

/-- Witness of C9: the run of parties 1, 3 and 4 of the test sharing. -/
theorem no_unverified_output_witness :
    ∃ pk P, toyPub.Commit = some pk ∧
      RecoverCommit (ZMod 13)
        (collectShares toySuite toyPub dfinityMsg 3
          (honestSigs toySuite toyPoly dfinityMsg [1, 3, 4]) []) 3 5 = Except.ok P ∧
      toySuite.marshal ((7 : ZMod 13) • hashed toySuite dfinityMsg) = toySuite.marshal P ∧
      Verify toySuite pk dfinityMsg
        (toySuite.marshal ((7 : ZMod 13) • hashed toySuite dfinityMsg)) = none :=
  no_unverified_output toySuite toyPub dfinityMsg
    (honestSigs toySuite toyPoly dfinityMsg [1, 3, 4]) 5 3 _
    (aggregate_honest toySuite toyPoly dfinityMsg [1, 3, 4] 5 3 toyPoly_valid toy_cap rfl
      (by decide) (by decide)).2

set_option maxRecDepth 100000 in
theorem toy_repeated_collect :
    collectShares toySuite toyPub dfinityMsg 3 [toySig 1, toySig 1, toySig 1] [] =
      [{ I := 1, V := 1 }, { I := 1, V := 1 }, { I := 1, V := 1 }] := by
  decide

theorem toy_repeated_recover :
    RecoverCommit (ZMod 13)
      ([{ I := 1, V := 1 }, { I := 1, V := 1 }, { I := 1, V := 1 }] : List (PubShare (ZMod 13)))
      3 5 = Except.ok 0 := by
  simp [RecoverCommit, xCommit, xCommitAux, lagrangeNum, lagrangeDen]

set_option maxRecDepth 100000 in
theorem toy_repeated_verify :
    Verify toySuite 7 dfinityMsg (toySuite.marshal 0) = some "bls: invalid signature" := by
  decide

theorem toy_repeated_aggregate :
    AggregateSignatures maxSliceCap toySuite toyPub dfinityMsg [toySig 1, toySig 1, toySig 1] 5 3 =
      AggResult.panic "math is wrong?" := by
  unfold AggregateSignatures
  refine aggregateWith_check_fails _ _ toySuite toyPub dfinityMsg _ 5 3 0 7
    "bls: invalid signature" (by decide) toy_cap ?_ ?_ rfl toy_repeated_verify
  · rw [toy_repeated_collect]; decide
  · rw [toy_repeated_collect]; exact toy_repeated_recover

set_option maxRecDepth 100000 in
theorem toy_nil_between_valid_panics :
    AggregateSignaturesRaw maxSliceCap toySuite toyPub dfinityMsg
        [(toySig 1).toRaw, (toySig 3).toRaw, none, (toySig 4).toRaw] 5 3 =
      AggResult.panic "invalid memory address or nil pointer dereference" := by
  decide

set_option maxRecDepth 100000 in
/-- Counterexample to C8 as stated, on the (3, 5) test sharing. Three copies of
the signature of party 1 all pass ThresholdVerify, yet AggregateSignatures
does not return a signature: interpolation over one repeated index yields a
point that fails the final check. The passing signatures of parties 1, 3 and
4 with the party count 2^62 end in the panic of the initial make. And with a
nil entry among them the call of ThresholdVerify panics. -/
theorem aggregate_fails_on_passing_candidates :
    ((∀ sig ∈ [toySig 1, toySig 1, toySig 1],
        ThresholdVerify toySuite toyPub dfinityMsg sig = true) ∧
      ∀ buff, AggregateSignaturesRaw maxSliceCap toySuite toyPub dfinityMsg
        (List.map ThresholdSig.toRaw [toySig 1, toySig 1, toySig 1]) 5 3 ≠
        AggResult.sig buff) ∧
    ((∀ sig ∈ [toySig 1, toySig 3, toySig 4],
        ThresholdVerify toySuite toyPub dfinityMsg sig = true) ∧
      AggregateSignaturesRaw maxSliceCap toySuite toyPub dfinityMsg
        (List.map ThresholdSig.toRaw [toySig 1, toySig 3, toySig 4]) (2 ^ 62) 3 =
        AggResult.panic "makeslice: cap out of range" ∧
      AggregateSignaturesRaw maxSliceCap toySuite toyPub dfinityMsg
        [(toySig 1).toRaw, (toySig 3).toRaw, none, (toySig 4).toRaw] 5 3 =
        AggResult.panic "invalid memory address or nil pointer dereference") := by
  refine ⟨⟨by decide, ?_⟩, ⟨by decide, ?_, toy_nil_between_valid_panics⟩⟩
  · intro buff h
    have h' : AggregateSignatures maxSliceCap toySuite toyPub dfinityMsg [toySig 1, toySig 1, toySig 1] 5 3 =
        AggResult.sig buff := h
    rw [toy_repeated_aggregate] at h'
    cases h'
  · exact aggregateRawWith_make_panics _ _ toySuite toyPub dfinityMsg _ (2 ^ 62) 3
      (Or.inr large_cap)

/-- C8, amended: robustness to noise. For a valid (t, n) sharing whose party count n
does not exceed the capacity make accepts, and a list of candidates that are
all present and hold a point: when at least t candidates pass ThresholdVerify
and the first t of them have pairwise distinct evaluation points (the scalars
1 + index), then, whatever failing candidates are interleaved at whatever
positions, AggregateSignatures returns a signature and it passes the ordinary
BLS check against the group public key. -/
theorem aggregate_robust_to_noise [DecidableEq GT] (s : PairingSuite F G1 G2 GT) (p : PriPoly F)
    (msg : List UInt8) (sigs : List (ThresholdSig G1)) (n t : Int)
    (hv : ValidSharing p n t) (hcap : n ≤ min cap maxSliceCap)
    (hcount : t ≤ ((sigs.filter (ThresholdVerify s (p.Commit s.base2) msg)).length : Int))
    (hnd : (((sigs.filter (ThresholdVerify s (p.Commit s.base2) msg)).take t.toNat).map
      (fun sig => shareX F sig.Index)).Nodup) :
    ∃ buff pk,
      AggregateSignaturesRaw cap s (p.Commit s.base2) msg (sigs.map ThresholdSig.toRaw) n t =
        AggResult.sig buff ∧
      (p.Commit s.base2).Commit = some pk ∧ Verify s pk msg buff = none := by
  have hne : p.coeffs ≠ [] := by
    intro h0
    have h1 := hv.2.2.1
    rw [h0] at h1
    have h2 := hv.1
    simp only [List.length_nil] at h1
    omega
  exact ⟨_, _, (aggregate_of_valid s p msg sigs n t hv hcap hcount hnd).2,
    commit_commit p s.base2 hne, verify_group_signature s _ msg⟩

set_option maxRecDepth 100000 in
/-- Witness of C8, amended: the signatures of parties 1, 3 and 4 of the test
sharing, interleaved with a garbage point, a relabelled signature and a
signature for another message, and followed by a fourth valid one. -/
theorem aggregate_robust_to_noise_witness :
    ∃ buff pk,
      AggregateSignaturesRaw maxSliceCap toySuite toyPub dfinityMsg
        (List.map ThresholdSig.toRaw
          [{ Index := 2, Sig := 5 }, toySig 1, { Index := 2, Sig := (toySig 4).Sig }, toySig 3,
            ThresholdSign toySuite (honestShare toySuite toyPoly 0) [1], toySig 4, toySig 0])
        5 3 = AggResult.sig buff ∧
      toyPub.Commit = some pk ∧ Verify toySuite pk dfinityMsg buff = none :=
  aggregate_robust_to_noise toySuite toyPoly dfinityMsg
    [{ Index := 2, Sig := 5 }, toySig 1, { Index := 2, Sig := (toySig 4).Sig }, toySig 3,
      ThresholdSign toySuite (honestShare toySuite toyPoly 0) [1], toySig 4, toySig 0]
    5 3 toyPoly_valid toy_cap (by decide) (by decide)

/-- Counterexample to C11 as stated: a candidate whose signature point is
missing (nil), and a missing candidate, make ThresholdVerify panic instead of
returning false. -/
theorem thresholdVerify_panics_on_missing_point :
    ThresholdVerifyRaw toySuite toyPub dfinityMsg (some { Index := 1, Sig := none }) =
        Except.error "pairing of a nil point" ∧
      ThresholdVerifyRaw toySuite toyPub dfinityMsg none =
        Except.error "invalid memory address or nil pointer dereference" :=
  ⟨rfl, rfl⟩

/-- C11, amended: ThresholdVerify is total on every candidate that holds a point.
For every sharing polynomial, message, index (negative or out of range
included) and point of G1 (garbage included) it returns a boolean without
panicking, and the boolean is false whenever the point is not the genuine
signature (value of the polynomial at that index) · H(m). -/
theorem thresholdVerify_total [DecidableEq GT] (s : PairingSuite F G1 G2 GT) (p : PriPoly F)
    (msg : List UInt8) (i : Int) (S : G1) :
    ThresholdVerifyRaw s (p.Commit s.base2) msg (some { Index := i, Sig := some S }) =
        Except.ok (ThresholdVerify s (p.Commit s.base2) msg { Index := i, Sig := S }) ∧
      (S ≠ (p.Eval i).V • hashed s msg →
        ThresholdVerify s (p.Commit s.base2) msg { Index := i, Sig := S } = false) := by
  refine ⟨rfl, fun hS => ?_⟩
  rw [Bool.eq_false_iff]
  intro hv
  exact hS ((thresholdVerify_iff s (p.Commit s.base2) msg { Index := i, Sig := S } (p.Eval i).V
    (commit_eval p s.base2 i)).mp hv)

/-- Witness of C11, amended: a garbage point under the negative index -4. -/
theorem thresholdVerify_total_witness :
    ThresholdVerifyRaw toySuite toyPub dfinityMsg (some { Index := -4, Sig := some 5 }) =
        Except.ok (ThresholdVerify toySuite toyPub dfinityMsg { Index := -4, Sig := 5 }) ∧
      ThresholdVerify toySuite toyPub dfinityMsg { Index := -4, Sig := 5 } = false :=
  ⟨(thresholdVerify_total toySuite toyPoly dfinityMsg (-4) 5).1,
    (thresholdVerify_total toySuite toyPoly dfinityMsg (-4) 5).2 (by decide)⟩

/-- Counterexample to C17 as stated. In the (3, 5) test sharing 7 + 3 x + 2 x²
the parties 0 and 3 hold the same share value 12, so the genuine signature of
party 0 on "dfinity", relabelled with the index 3, passes ThresholdVerify. And
in a (1, 5) sharing all parties hold the same value, so the signature of
party 0 passes under the index 1. -/
theorem relabelled_signature_accepted :
    ((0 : Int) ≠ 3 ∧ hashed toySuite dfinityMsg ≠ 0 ∧
      ThresholdVerify toySuite toyPub dfinityMsg
        { Index := 3,
          Sig := (ThresholdSign toySuite (honestShare toySuite toyPoly 0) dfinityMsg).Sig } =
        true) ∧
    ((0 : Int) ≠ 1 ∧
      ThresholdVerify toySuite (constPoly.Commit toySuite.base2) dfinityMsg
        { Index := 1,
          Sig := (ThresholdSign toySuite (honestShare toySuite constPoly 0) dfinityMsg).Sig } =
        true) := by
  decide

/-- C17, amended: wrong-index rejection. For a genuine signature (i, x_i · H(m)) made
by ThresholdSign and an index j whose share value x_j (public.Eval(j) =
x_j · G2base) differs from x_i, when H(m) is not the identity, ThresholdVerify
returns false for the relabelled candidate (j, x_i · H(m)). -/
theorem wrong_index_rejected [DecidableEq GT] (s : PairingSuite F G1 G2 GT) (pub : PubPoly G2)
    (d : DistKeyShare F G2) (msg : List UInt8) (j : Int) (xj : F)
    (hj : (PubPoly.Eval (F := F) pub j).V = xj • s.base2) (hne : xj ≠ d.PriShare.V)
    (hH : hashed s msg ≠ 0) :
    ThresholdVerify s pub msg { Index := j, Sig := (ThresholdSign s d msg).Sig } = false := by
  rw [Bool.eq_false_iff]
  intro hv
  have h1 : d.PriShare.V • hashed s msg = xj • hashed s msg :=
    (thresholdVerify_iff s pub msg { Index := j, Sig := (ThresholdSign s d msg).Sig } xj hj).mp hv
  have h2 : (d.PriShare.V - xj) • hashed s msg = 0 := by
    rw [sub_smul]; exact sub_eq_zero.mpr h1
  rcases smul_eq_zero.mp h2 with h3 | h3
  · exact hne (sub_eq_zero.mp h3).symm
  · exact hH h3

/-- Witness of C17, amended: the signature of party 4 of the test sharing on
"dfinity", relabelled with the index 2. -/
theorem wrong_index_rejected_witness :
    ThresholdVerify toySuite toyPub dfinityMsg
      { Index := 2,
        Sig := (ThresholdSign toySuite (honestShare toySuite toyPoly 4) dfinityMsg).Sig } =
      false :=
  wrong_index_rejected toySuite toyPub (honestShare toySuite toyPoly 4) dfinityMsg 2
    (toyPoly.Eval 2).V (commit_eval toyPoly toySuite.base2 2) (by decide) (by decide)

set_option maxRecDepth 100000 in
theorem toy_mismatch_collect :
    collectShares toySuite toyPub dfinityMsg 2 [toySig 0, toySig 1] [] =
      [{ I := 0, V := 8 }, { I := 1, V := 1 }] := by
  decide

theorem toy_mismatch_recover :
    RecoverCommit (ZMod 13)
      ([{ I := 0, V := 8 }, { I := 1, V := 1 }] : List (PubShare (ZMod 13))) 2 5 =
      Except.ok 2 := by
  simp [RecoverCommit, xCommit, xCommitAux, lagrangeNum, lagrangeDen, shareX]
  norm_num
  decide

set_option maxRecDepth 100000 in
theorem toy_mismatch_verify :
    Verify toySuite 7 dfinityMsg (toySuite.marshal 2) = some "bls: invalid signature" := by
  decide

/-- Counterexample to C12 as stated: on the test sharing of degree 2 with the
threshold argument t = 2, the signatures of parties 0 and 1 pass the count
check, the point recovered from the two of them fails the final check, and
AggregateSignatures ends in the panic "math is wrong?": no error value reaches
the caller. -/
theorem final_check_failure_panics :
    AggregateSignatures maxSliceCap toySuite toyPub dfinityMsg [toySig 0, toySig 1] 5 2 =
        AggResult.panic "math is wrong?" ∧
      ∀ e, AggregateSignatures maxSliceCap toySuite toyPub dfinityMsg [toySig 0, toySig 1] 5 2 ≠
        AggResult.err e := by
  have h : AggregateSignatures maxSliceCap toySuite toyPub dfinityMsg [toySig 0, toySig 1] 5 2 =
      AggResult.panic "math is wrong?" := by
    unfold AggregateSignatures
    refine aggregateWith_check_fails _ _ toySuite toyPub dfinityMsg _ 5 2 2 7
      "bls: invalid signature" (by decide) toy_cap ?_ ?_ rfl toy_mismatch_verify
    · rw [toy_mismatch_collect]; decide
    · rw [toy_mismatch_collect]; exact toy_mismatch_recover
  refine ⟨h, fun e he => ?_⟩
  rw [h] at he
  cases he

/-- C12, amended: when the recovered signature fails the final verification against
the group public key, AggregateSignatures does not return: it aborts with the
panic "math is wrong?", which is neither a signature nor an error value, the
insufficient-valid-shares error included. This holds whatever the recovery
primitive and the final check are. That recovery was reached includes that
the initial make succeeded (0 ≤ n ≤ min cap maxSliceCap). -/
theorem final_check_failure_aborts [DecidableEq GT]
    (recover : List (PubShare G1) → Int → Int → Except String G1)
    (verify : G2 → List UInt8 → List UInt8 → Option String)
    (s : PairingSuite F G1 G2 GT) (pub : PubPoly G2) (msg : List UInt8)
    (sigs : List (ThresholdSig G1)) (n t : Int) (P : G1) (pk : G2) (e : String) (hn : 0 ≤ n)
    (hcap : n ≤ min cap maxSliceCap)
    (hacc : t ≤ ((collectShares s pub msg t sigs []).length : Int))
    (hrec : recover (collectShares s pub msg t sigs []) t n = Except.ok P)
    (hpk : pub.Commit = some pk) (hver : verify pk msg (s.marshal P) = some e) :
    AggregateSignaturesWith cap recover verify s pub msg sigs n t =
        AggResult.panic "math is wrong?" ∧
      (∀ e', AggregateSignaturesWith cap recover verify s pub msg sigs n t ≠ AggResult.err e') ∧
      ∀ buff, AggregateSignaturesWith cap recover verify s pub msg sigs n t ≠ AggResult.sig buff := by
  have h := aggregateWith_check_fails recover verify s pub msg sigs n t P pk e hn hcap hacc hrec
    hpk hver
  refine ⟨h, fun e' he => ?_, fun buff hb => ?_⟩
  · rw [h] at he; cases he
  · rw [h] at hb; cases hb

/-- Witness of C12, amended: three copies of the signature of party 1 of the test
sharing; the recovered point is the identity. -/
theorem final_check_failure_aborts_witness :
    AggregateSignaturesWith maxSliceCap (RecoverCommit (ZMod 13)) (Verify toySuite) toySuite toyPub
        dfinityMsg [toySig 1, toySig 1, toySig 1] 5 3 = AggResult.panic "math is wrong?" ∧
      (∀ e', AggregateSignaturesWith maxSliceCap (RecoverCommit (ZMod 13)) (Verify toySuite) toySuite toyPub
        dfinityMsg [toySig 1, toySig 1, toySig 1] 5 3 ≠ AggResult.err e') ∧
      ∀ buff, AggregateSignaturesWith maxSliceCap (RecoverCommit (ZMod 13)) (Verify toySuite) toySuite
        toyPub dfinityMsg [toySig 1, toySig 1, toySig 1] 5 3 ≠ AggResult.sig buff :=
  final_check_failure_aborts (RecoverCommit (ZMod 13)) (Verify toySuite) toySuite toyPub
    dfinityMsg [toySig 1, toySig 1, toySig 1] 5 3 0 7 "bls: invalid signature" (by decide)
    toy_cap (by rw [toy_repeated_collect]; decide)
    (by rw [toy_repeated_collect]; exact toy_repeated_recover) rfl toy_repeated_verify

set_option maxRecDepth 100000 in
theorem toy_three_collected :
    (3 : Int) ≤ ((collectShares toySuite toyPub dfinityMsg 3
      [toySig 1, toySig 3, toySig 4] []).length : Int) := by
  decide

/-- C13: recovery-failure propagation. When the loop has run (the initial make
succeeded, 0 ≤ n ≤ min cap maxSliceCap) and accumulated at least t candidates, and the
recovery primitive returns the error e on them, AggregateSignatures returns
exactly the error e and no signature; the same holds for every recovery
primitive and whatever the final check is, so the final check is not
consulted. -/
theorem recovery_failure_propagated [DecidableEq GT]
    (recover : List (PubShare G1) → Int → Int → Except String G1)
    (verify : G2 → List UInt8 → List UInt8 → Option String)
    (s : PairingSuite F G1 G2 GT) (pub : PubPoly G2) (msg : List UInt8)
    (sigs : List (ThresholdSig G1)) (n t : Int) (e : String) (hn : 0 ≤ n)
    (hcap : n ≤ min cap maxSliceCap)
    (hacc : t ≤ ((collectShares s pub msg t sigs []).length : Int)) :
    (RecoverCommit F (collectShares s pub msg t sigs []) t n = Except.error e →
        AggregateSignatures cap s pub msg sigs n t = AggResult.err e) ∧
      (recover (collectShares s pub msg t sigs []) t n = Except.error e →
        AggregateSignaturesWith cap recover verify s pub msg sigs n t = AggResult.err e) :=
  ⟨fun hrec => aggregateWith_recover_error (RecoverCommit F) (Verify s) s pub msg sigs n t e hn
      hcap hacc hrec,
    fun hrec => aggregateWith_recover_error recover verify s pub msg sigs n t e hn hcap hacc
      hrec⟩

/-- Witness of C13: the signatures of parties 1, 3 and 4 of the test sharing
handed to a recovery primitive that fails. -/
theorem recovery_failure_propagated_witness :
    AggregateSignaturesWith maxSliceCap (fun _ _ _ => Except.error "share: recovery failed")
        (Verify toySuite) toySuite toyPub dfinityMsg [toySig 1, toySig 3, toySig 4] 5 3 =
      AggResult.err "share: recovery failed" :=
  (recovery_failure_propagated (fun _ _ _ => Except.error "share: recovery failed")
    (Verify toySuite) toySuite toyPub dfinityMsg [toySig 1, toySig 3, toySig 4] 5 3
    "share: recovery failed" (by decide) toy_cap toy_three_collected).2 rfl

/-- C16: duplicate indices are counted. A candidate that passes ThresholdVerify,
repeated t times (t ≥ 2, the initial make succeeding: 0 ≤ n ≤ min cap maxSliceCap),
gives a list with one distinct index, fewer than t; yet every copy is
accumulated, the count check passes, the recovery primitive receives t
entries that all carry that index and its outcome is what decides the result,
and AggregateSignatures does not return the error "not enough valid threshold
bls signatures". -/
theorem duplicate_indices_counted [DecidableEq GT]
    (recover : List (PubShare G1) → Int → Int → Except String G1)
    (verify : G2 → List UInt8 → List UInt8 → Option String)
    (s : PairingSuite F G1 G2 GT) (pub : PubPoly G2) (msg : List UInt8)
    (sig : ThresholdSig G1) (n t : Int) (ht : 2 ≤ t) (hn : 0 ≤ n) (hcap : n ≤ min cap maxSliceCap)
    (hv : ThresholdVerify s pub msg sig = true) :
    ((((List.replicate t.toNat sig).map (fun c => c.Index)).toFinset.card : Int) < t) ∧
      collectShares s pub msg t (List.replicate t.toNat sig) [] =
        List.replicate t.toNat ({ V := sig.Sig, I := sig.Index } : PubShare G1) ∧
      ¬ ((collectShares s pub msg t (List.replicate t.toNat sig) []).length : Int) < t ∧
      (∀ e, recover (List.replicate t.toNat ({ V := sig.Sig, I := sig.Index } : PubShare G1)) t n =
          Except.error e →
        AggregateSignaturesWith cap recover verify s pub msg (List.replicate t.toNat sig) n t =
          AggResult.err e) ∧
      AggregateSignatures cap s pub msg (List.replicate t.toNat sig) n t ≠
        AggResult.err "not enough valid threshold bls signatures" := by
  have hne : t.toNat ≠ 0 := by omega
  have hcs : collectShares s pub msg t (List.replicate t.toNat sig) [] =
      List.replicate t.toNat ({ V := sig.Sig, I := sig.Index } : PubShare G1) := by
    rw [collectShares_take s pub msg t (by omega), List.filter_replicate_of_pos hv,
      List.take_replicate, List.map_replicate, Nat.min_self]
  have hlen : ((collectShares s pub msg t (List.replicate t.toNat sig) []).length : Int) = t := by
    rw [hcs, List.length_replicate]
    omega
  refine ⟨?_, hcs, by omega, ?_, ?_⟩
  · rw [List.map_replicate, List.toFinset_replicate_of_ne_zero hne, Finset.card_singleton]
    omega
  · intro e he
    exact aggregateWith_recover_error recover verify s pub msg _ n t e hn hcap (by omega)
      (by rw [hcs]; exact he)
  · exact aggregate_ne_notEnough s pub msg _ n t (by omega)

/-- Witness of C16: the signature of party 1 of the test sharing, three times,
threshold 3. -/
theorem duplicate_indices_counted_witness :
    collectShares toySuite toyPub dfinityMsg 3 (List.replicate (3 : Int).toNat (toySig 1)) [] =
        List.replicate (3 : Int).toNat ({ V := (toySig 1).Sig, I := (toySig 1).Index } :
          PubShare (ZMod 13)) ∧
      AggregateSignatures maxSliceCap toySuite toyPub dfinityMsg
        (List.replicate (3 : Int).toNat (toySig 1)) 5 3 ≠
        AggResult.err "not enough valid threshold bls signatures" :=
  have h := duplicate_indices_counted (RecoverCommit (ZMod 13)) (Verify toySuite) toySuite toyPub
    dfinityMsg (toySig 1) 5 3 (by decide) (by decide) toy_cap
    (honest_passes toySuite toyPoly dfinityMsg 1)
  ⟨h.2.1, h.2.2.2.2⟩

/-- Counterexample to C18 as stated: in the valid (2, 2^62) sharing 7 + 3 x over
the rational suite, the signatures of parties 0, 1 and those of parties 2, 1
on "dfinity" make AggregateSignatures return no signature at all: the initial
make with capacity 2^62 panics. -/
theorem aggregate_no_signature_for_large_sharing :
    ValidSharing ratPoly (2 ^ 62) 2 ∧
      (([0, 1] : List Int).Nodup ∧ ∀ i ∈ ([0, 1] : List Int), 0 ≤ i ∧ i < 2 ^ 62) ∧
      (([2, 1] : List Int).Nodup ∧ ∀ i ∈ ([2, 1] : List Int), 0 ≤ i ∧ i < 2 ^ 62) ∧
      (∀ buff, AggregateSignatures maxSliceCap ratSuite (ratPoly.Commit ratSuite.base2) dfinityMsg
        (honestSigs ratSuite ratPoly dfinityMsg [0, 1]) (2 ^ 62) 2 ≠ AggResult.sig buff) ∧
      (∀ buff, AggregateSignatures maxSliceCap ratSuite (ratPoly.Commit ratSuite.base2) dfinityMsg
        (honestSigs ratSuite ratPoly dfinityMsg [2, 1]) (2 ^ 62) 2 ≠ AggResult.sig buff) := by
  refine ⟨ratPoly_valid, ⟨by decide, by decide⟩, ⟨by decide, by decide⟩, ?_, ?_⟩
  · intro buff h
    rw [aggregate_make_panics ratSuite _ dfinityMsg _ (2 ^ 62) 2 (Or.inr large_cap)] at h
    cases h
  · intro buff h
    rw [aggregate_make_panics ratSuite _ dfinityMsg _ (2 ^ 62) 2 (Or.inr large_cap)] at h
    cases h

/-- C18, amended: subset and order independence. For a valid (t, n) sharing whose party
count n does not exceed the capacity make accepts, and a message, any two
lists of t signatures made by ThresholdSign for pairwise distinct parties,
whatever the subsets and the orders, make AggregateSignatures return the
same bytes, the signature of the message under the group secret. -/
theorem aggregate_subset_order_independent [DecidableEq GT] (s : PairingSuite F G1 G2 GT)
    (p : PriPoly F) (msg : List UInt8) (idxs idxs' : List Int) (n t : Int)
    (hv : ValidSharing p n t) (hcap : n ≤ min cap maxSliceCap)
    (hlen : (idxs.length : Int) = t) (hnd : idxs.Nodup) (hr : ∀ i ∈ idxs, 0 ≤ i ∧ i < n)
    (hlen' : (idxs'.length : Int) = t) (hnd' : idxs'.Nodup)
    (hr' : ∀ i ∈ idxs', 0 ≤ i ∧ i < n) :
    AggregateSignatures cap s (p.Commit s.base2) msg (honestSigs s p msg idxs) n t =
        AggregateSignatures cap s (p.Commit s.base2) msg (honestSigs s p msg idxs') n t ∧
      AggregateSignatures cap s (p.Commit s.base2) msg (honestSigs s p msg idxs) n t =
        AggResult.sig (Sign s p.Secret msg) := by
  have h1 := (aggregate_honest s p msg idxs n t hv hcap hlen hnd hr).2
  have h2 := (aggregate_honest s p msg idxs' n t hv hcap hlen' hnd' hr').2
  exact ⟨h1.trans h2.symm, h1⟩

/-- Witness of C18, amended: parties 1, 3, 4 against parties 4, 0, 2 of the test
sharing. -/
theorem aggregate_subset_order_independent_witness :
    AggregateSignatures maxSliceCap toySuite toyPub dfinityMsg
        (honestSigs toySuite toyPoly dfinityMsg [1, 3, 4]) 5 3 =
        AggregateSignatures maxSliceCap toySuite toyPub dfinityMsg
          (honestSigs toySuite toyPoly dfinityMsg [4, 0, 2]) 5 3 ∧
      AggregateSignatures maxSliceCap toySuite toyPub dfinityMsg
        (honestSigs toySuite toyPoly dfinityMsg [1, 3, 4]) 5 3 =
        AggResult.sig (Sign toySuite toyPoly.Secret dfinityMsg) :=
  aggregate_subset_order_independent toySuite toyPoly dfinityMsg [1, 3, 4] [4, 0, 2] 5 3
    toyPoly_valid toy_cap rfl (by decide) (by decide) rfl (by decide) (by decide)

set_option maxRecDepth 100000 in
theorem toy_nil_nonpos_panics :
    AggregateSignaturesRawWith maxSliceCap (fun _ _ _ => Except.error "recovery reached") (Verify toySuite)
        toySuite toyPub dfinityMsg [none, (toySig 1).toRaw] 5 0 =
      AggResult.panic "invalid memory address or nil pointer dereference" := by
  decide

/-- Counterexample to C19 as stated, with the threshold 0 on the test sharing and
a recovery primitive that answers every call with the error "recovery
reached": for the party count -1 and for the party count 2^62 the initial
make panics, and with a nil first entry the call of ThresholdVerify panics;
in none of the three runs is the count check or the recovery primitive
reached. -/
theorem nonpositive_threshold_recovery_not_reached :
    AggregateSignaturesRawWith maxSliceCap (fun _ _ _ => Except.error "recovery reached") (Verify toySuite)
        toySuite toyPub dfinityMsg [(toySig 1).toRaw] (-1) 0 =
        AggResult.panic "makeslice: cap out of range" ∧
      AggregateSignaturesRawWith maxSliceCap (fun _ _ _ => Except.error "recovery reached") (Verify toySuite)
        toySuite toyPub dfinityMsg [(toySig 1).toRaw] (2 ^ 62) 0 =
        AggResult.panic "makeslice: cap out of range" ∧
      AggregateSignaturesRawWith maxSliceCap (fun _ _ _ => Except.error "recovery reached") (Verify toySuite)
        toySuite toyPub dfinityMsg [none, (toySig 1).toRaw] 5 0 =
        AggResult.panic "invalid memory address or nil pointer dereference" :=
  ⟨aggregateRawWith_make_panics _ _ toySuite toyPub dfinityMsg _ (-1) 0 (Or.inl (by decide)),
    aggregateRawWith_make_panics _ _ toySuite toyPub dfinityMsg _ (2 ^ 62) 0 (Or.inr large_cap),
    toy_nil_nonpos_panics⟩

/-- C19, amended: non-positive threshold. For t ≤ 0, every party count and every
candidate list, nil entries included, AggregateSignatures does not return the
error "not enough valid threshold bls signatures". On candidates that are all
present and hold a point the loop accumulates at most one share (the first
passing candidate, none if no candidate passes) and the count check passes;
and when the initial make succeeds (0 ≤ n ≤ min cap maxSliceCap) the recovery
primitive is consulted on that list, its error being what AggregateSignatures
returns. -/
theorem nonpositive_threshold [DecidableEq GT]
    (recover : List (PubShare G1) → Int → Int → Except String G1)
    (verify : G2 → List UInt8 → List UInt8 → Option String)
    (s : PairingSuite F G1 G2 GT) (pub : PubPoly G2) (msg : List UInt8)
    (raw : List (Option (RawThresholdSig G1))) (sigs : List (ThresholdSig G1)) (n t : Int)
    (ht : t ≤ 0) :
    AggregateSignaturesRaw cap s pub msg raw n t ≠
        AggResult.err "not enough valid threshold bls signatures" ∧
      collectSharesRaw s pub msg t (sigs.map ThresholdSig.toRaw) [] =
        Except.ok (collectShares s pub msg t sigs []) ∧
      ¬ ((collectShares s pub msg t sigs []).length : Int) < t ∧
      (collectShares s pub msg t sigs []).length ≤ 1 ∧
      ((∀ sig ∈ sigs, ThresholdVerify s pub msg sig = false) →
        collectShares s pub msg t sigs [] = []) ∧
      (0 ≤ n → n ≤ min cap maxSliceCap →
        ∀ e, recover (collectShares s pub msg t sigs []) t n = Except.error e →
          AggregateSignaturesRawWith cap recover verify s pub msg (sigs.map ThresholdSig.toRaw) n t =
            AggResult.err e) := by
  have hcs := collectShares_nonpos s pub msg t ht sigs
  have hlen : (collectShares s pub msg t sigs []).length ≤ 1 := by
    rw [hcs, List.length_map, List.length_take]
    exact Nat.min_le_left _ _
  refine ⟨aggregateRaw_ne_notEnough s pub msg raw n t (fun shares _ => by omega),
    collectSharesRaw_toRaw s pub msg t sigs [], by omega, hlen, ?_, ?_⟩
  · intro hall
    rw [hcs]
    have hnil : sigs.filter (ThresholdVerify s pub msg) = [] := by
      rw [List.filter_eq_nil_iff]
      intro sig hsig
      simp [hall sig hsig]
    rw [hnil]
    rfl
  · intro hn hcap e he
    exact aggregateWith_recover_error recover verify s pub msg sigs n t e hn hcap (by omega) he

/-- Witness of C19, amended: the threshold 0 with two passing candidates, and with
the empty list. -/
theorem nonpositive_threshold_witness :
    AggregateSignaturesRaw maxSliceCap toySuite toyPub dfinityMsg
        [(toySig 1).toRaw, none, (toySig 3).toRaw] 5 0 ≠
        AggResult.err "not enough valid threshold bls signatures" ∧
      (collectShares toySuite toyPub dfinityMsg 0 [toySig 1, toySig 3] []).length ≤ 1 ∧
      AggregateSignaturesRaw maxSliceCap toySuite toyPub dfinityMsg [] 5 0 ≠
        AggResult.err "not enough valid threshold bls signatures" :=
  have h := nonpositive_threshold (RecoverCommit (ZMod 13)) (Verify toySuite) toySuite toyPub
    dfinityMsg [(toySig 1).toRaw, none, (toySig 3).toRaw] [toySig 1, toySig 3] 5 0 (by decide)
  have h' := nonpositive_threshold (RecoverCommit (ZMod 13)) (Verify toySuite) toySuite toyPub
    dfinityMsg [] [] 5 0 (by decide)
  ⟨h.1, h.2.2.2.1, h'.1⟩

end aggregation

end bls
